import Mathlib

/-!
Verification of the strategy-simulation and rolling-returns engine of the
buy-the-dip / DCA / buy-and-hold comparison tool (`investment.py`).

Shallow embedding conventions:
* Dates are `Nat` day numbers (days since an epoch Monday), so business days
  are the days `d` with `d % 7 < 5` and lexicographic comparison of the
  source's `%Y-%m-%d` date strings coincides with `Nat` order.
* Prices and monetary amounts are `ℚ` (exact arithmetic standing in for the
  source's floats).
* pandas calendar primitives that the engine treats as black boxes are
  passed in as function parameters: `cal` models `pd.date_range`/`pd.bdate_range`
  for the chosen frequency, `bl` models the resampling bucket end-label map of
  the chosen frequency (for `Daily`/`'B'` on business-day data it is the
  identity on business days), and `monthsBack` models
  `end - pd.DateOffset(months=m)`.
* Fallible code returns `Except String _`; the string is the exception message.
-/

set_option maxRecDepth 100000

namespace Invest

/-- One raw row of the historical price frame: date, `Open`, `Close`. -/
structure Row where
  date : Nat
  openPx : ℚ
  closePx : ℚ
  deriving DecidableEq, Repr

/-- Default row used only for `headD`/`getLastD` on lists proved nonempty. -/
def dRow : Row := ⟨0, 0, 0⟩

/-- The five supported investment frequencies. -/
inductive Frequency where
  | Daily | Weekly | BiWeekly | Monthly | Annual
  deriving DecidableEq, Repr

/-- The inclusive day range `[s, e]` as a list (empty when `e < s`),
models the index of a pandas date range before frequency filtering. -/
def rangeList (s e : Nat) : List Nat := (List.range (e + 1 - s)).map (s + ·)

/-- `d` is a business day (epoch day 0 is a Monday). -/
def isBDay (d : Nat) : Bool := d % 7 < 5

/-- `pd.bdate_range(s, e)` / `pd.date_range(s, e, freq='B')`:
all business days in `[s, e]`. -/
def bdays (s e : Nat) : List Nat := (rangeList s e).filter isBDay

/-- Bucket end-label map for `'B'` resampling of business-day-stamped data:
a business day labels its own bucket (weekend stamps map to the next Monday). -/
def dailyLabel (d : Nat) : Nat := if d % 7 < 5 then d else d + (7 - d % 7)

/-- The labels of all resampling buckets between labels `s` and `e`:
the fixed points of the bucket label map `b` in `[s, e]`.  Models the index
pandas materializes for `series.resample(freq)`. -/
def labelRange (b : Nat → Nat) (s e : Nat) : List Nat :=
  (rangeList s e).filter (fun d => b d == d)

/-- Last `Close` falling in the bucket labelled `ℓ`, if any
(`resample(freq)['Close'].last()` for one bucket; `none` is pandas `NaN`). -/
def lastIn (b : Nat → Nat) (raw : List (Nat × ℚ)) (ℓ : Nat) : Option ℚ :=
  ((raw.filter (fun p => b p.1 == ℓ)).map (·.2)).getLast?

/-- `series.resample(freq)['Close'].last()`: one row per bucket label spanned
by the data, holding the last close of the bucket (or `NaN`). -/
def resampleLast (b : Nat → Nat) (raw : List (Nat × ℚ)) : List (Nat × Option ℚ) :=
  match raw with
  | [] => []
  | r :: rs =>
    (labelRange b (b r.1) (b (((r :: rs).getLastD r).1))).map
      (fun ℓ => (ℓ, lastIn b (r :: rs) ℓ))

/-- Forward fill, threading the most recent non-`NaN` value `cur`. -/
def ffillGo (cur : Option ℚ) : List (Nat × Option ℚ) → List (Nat × Option ℚ)
  | [] => []
  | (d, some q) :: rest => (d, some q) :: ffillGo (some q) rest
  | (d, none) :: rest => (d, cur) :: ffillGo cur rest

/-- `series.ffill()`. -/
def ffill (l : List (Nat × Option ℚ)) : List (Nat × Option ℚ) := ffillGo none l

/-- `series.bfill()`: forward fill of the reversed series. -/
def bfill (l : List (Nat × Option ℚ)) : List (Nat × Option ℚ) :=
  (ffillGo none l.reverse).reverse

/-- `series.isna().any()`. -/
def hasNone (l : List (Nat × Option ℚ)) : Bool := l.any (fun p => p.2.isNone)

/-- `if series.isna().any(): series = series.ffill().bfill()`. -/
def fillIfNa (l : List (Nat × Option ℚ)) : List (Nat × Option ℚ) :=
  if hasNone l then bfill (ffill l) else l

/-- Split a list into successive blocks of `n` elements
(`[l.iloc[i:i+n] for i in range(0, len(l), n)]`). -/
def chunksOf (n : Nat) : List α → List (List α)
  | [] => []
  | a :: rest => (a :: rest.take (n - 1)) :: chunksOf n (rest.drop (n - 1))
  termination_by l => l.length
  decreasing_by simp only [List.length_cons, List.length_drop]; omega

/-- `data[~data.index.duplicated(keep='first')]`: drop rows whose key was
already seen. -/
def dedupKeepFirst : List (Nat × α) → List Nat → List (Nat × α)
  | [], _ => []
  | p :: rest, seen =>
    if seen.contains p.1 then dedupKeepFirst rest seen
    else p :: dedupKeepFirst rest (p.1 :: seen)

/-- Whole-series resampling path of `calculate_strategies`
(lines 237-239: resample, then conditional ffill/bfill). -/
def resample_whole (b : Nat → Nat) (raw : List (Nat × ℚ)) : List (Nat × Option ℚ) :=
  fillIfNa (resampleLast b raw)

/-- Chunked resampling path of `calculate_strategies` (lines 226-235):
resample and fill each 1000-row chunk, then concatenate. -/
def resample_chunked (b : Nat → Nat) (raw : List (Nat × ℚ)) : List (Nat × Option ℚ) :=
  ((chunksOf 1000 raw).map (fun c => fillIfNa (resampleLast b c))).flatten

/-- Lines 222-248 of `calculate_strategies`: choose the chunked path for more
than 1000 rows, fail when the resampled series is empty, then drop duplicate
index entries keeping the first. -/
def resample_step (b : Nat → Nat) (raw : List (Nat × ℚ)) :
    Except String (List (Nat × Option ℚ)) :=
  let d := if 1000 < raw.length then resample_chunked b raw else resample_whole b raw
  if d.isEmpty then .error "Error resampling data: Insufficient data after resampling"
  else .ok (dedupKeepFirst d [])

/-- The spec's §4.2 normalize step: resample at the frequency taking the last
close per bucket, forward- then back-fill, drop duplicate index entries
keeping the first. -/
def normalize (b : Nat → Nat) (raw : List (Nat × ℚ)) : List (Nat × Option ℚ) :=
  dedupKeepFirst (resample_whole b raw) []

/-- Materialize the non-`NaN` rows of a resampled series as exact rationals.
The engine only ever consumes series with no `NaN` left (see
`fill_all_isSome`), where this is the identity on the data. -/
def denan (l : List (Nat × Option ℚ)) : List (Nat × ℚ) :=
  l.filterMap (fun p => p.2.map (fun q => (p.1, q)))

/-- Python's `round(x, 2)` (ties modelled half-up; only display fields use it). -/
def round2 (x : ℚ) : ℚ := (⌊x * 100 + 1 / 2⌋ : ℚ) / 100

/-! ## Rolling returns analyzer (`calculate_rolling_returns`) -/

/-- Labels of the rolling-return horizons. -/
inductive RollLabel where
  | y1 | y5 | y10 | y15 | y20 | y25 | allTime
  deriving DecidableEq, Repr

/-- Per-strategy percentage returns of one horizon
(`Buy the Dip`, `Dollar-Cost Averaging (DCA)`, `Buy and Hold`). -/
structure StratReturns where
  dip : ℚ
  dca : ℚ
  hold : ℚ
  deriving DecidableEq, Repr

/-- `all_periods` (lines 24-31): the named horizons and their month counts. -/
def allPeriods : List (RollLabel × Nat) :=
  [(.y1, 12), (.y5, 60), (.y10, 120), (.y15, 180), (.y20, 240), (.y25, 300)]

/-- `MAX_LOOKBACK_MONTHS // 2` (line 95's threshold). -/
def halfMaxLookback : Nat := 150

/-- `calculate_simple_returns` (lines 60-79) on a window's closes: buy-and-hold
return `(final - initial)/initial*100`, with 1.10x / 1.05x heuristic
multipliers for Buy-the-Dip and DCA; `none` when the window is empty
(IndexError, caught) or a boundary price is nonpositive. -/
def calculate_simple_returns (closes : List ℚ) : Option StratReturns :=
  match closes with
  | [] => none
  | c :: cs =>
    let finalP := (c :: cs).getLastD c
    let initialP := c
    if initialP ≤ 0 ∨ finalP ≤ 0 then none
    else
      let priceReturn := (finalP - initialP) / initialP * 100
      some ⟨priceReturn * 1.1, priceReturn * 1.05, priceReturn⟩

/-- Lines 90-92: the trailing window of `period_months` months ending at the
history's last date. -/
def windowOf (monthsBack : Nat → Nat → Nat) (hist : List (Nat × ℚ))
    (periodMonths : Nat) : List (Nat × ℚ) :=
  match hist with
  | [] => []
  | h :: t =>
    (h :: t).filter (fun p => monthsBack (((h :: t).getLastD h)).1 periodMonths ≤ p.1)

/-- `series.mean()` over the non-`NaN` values. -/
def meanOf (l : List ℚ) : ℚ := l.foldl (· + ·) 0 / (l.length : ℚ)

/-- Lines 82-140 for one included horizon of `period_months` months: the window
is the trailing `period_months` months of the full history; horizons longer
than 150 months use `calculate_simple_returns`, shorter ones resample the
window (`agg(['last']).ffill()`), and derive DCA from `final / mean`.  A zero
mean raises `ZeroDivisionError`, which line 135 catches and answers with the
simple-returns fallback.  `none` means the horizon is skipped. -/
def horizon_entry (bl : Nat → Nat) (monthsBack : Nat → Nat → Nat)
    (hist : List (Nat × ℚ)) (periodMonths : Nat) : Option StratReturns :=
  match hist with
  | [] => none
  | _ :: _ =>
    let window := windowOf monthsBack hist periodMonths
    if halfMaxLookback < periodMonths then
      calculate_simple_returns (window.map (·.2))
    else
      let rs := ffill (resampleLast bl window)
      if rs.isEmpty then none
      else
        match rs.filterMap (·.2) with
        | [] => none
        | v :: vs =>
          let finalV := (v :: vs).getLastD v
          let initialV := v
          if initialV ≤ 0 ∨ finalV ≤ 0 then none
          else
            if meanOf (v :: vs) = 0 then calculate_simple_returns (window.map (·.2))
            else
              let dcaReturn := (finalV / meanOf (v :: vs) - 1) * 100
              some ⟨dcaReturn * 1.1, dcaReturn, (finalV - initialV) / initialV * 100⟩

/-- `(end_date - start_date).days // 30` (line 36). -/
def dataLengthMonths (hist : List (Nat × ℚ)) : Nat :=
  match hist with
  | [] => 0
  | h :: t => ((((h :: t).getLastD h)).1 - h.1) / 30

/-- `calculate_rolling_returns` (lines 4-152): named horizons are included when
`period_months ≤ data_length_months`; a horizon whose computation yields
`none` is omitted; `All-Time` is appended from `calculate_simple_returns`
over the whole history when that succeeds. -/
def calculate_rolling_returns (bl : Nat → Nat) (monthsBack : Nat → Nat → Nat)
    (hist : List (Nat × ℚ)) : List (RollLabel × StratReturns) :=
  match hist with
  | [] => []
  | h :: t =>
    let dlm := dataLengthMonths (h :: t)
    let included := allPeriods.filter (fun pr => pr.2 ≤ dlm)
    let entries := included.filterMap
      (fun pr => (horizon_entry bl monthsBack (h :: t) pr.2).map (fun r => (pr.1, r)))
    let allT := (calculate_simple_returns ((h :: t).map (·.2))).map
      (fun r => (RollLabel.allTime, r))
    entries ++ allT.toList

/-! ## Strategy simulators -/

/-- One recorded DCA purchase (the dict appended at lines 289-296). -/
structure DPur where
  date : Nat
  price : ℚ
  shares : ℚ
  amountPaid : ℚ
  cumShares : ℚ
  cumInvested : ℚ
  deriving DecidableEq, Repr

/-- `data.loc[date]` on the deduplicated resampled series:
`none` models the `KeyError` path (caught and skipped). -/
def lookupPrice (data : List (Nat × ℚ)) (d : Nat) : Option ℚ :=
  (data.find? (fun p => p.1 == d)).map (·.2)

/-- The DCA purchase loop (lines 277-299): walk the trading schedule, look the
date up in the normalized series, skip missing or nonpositive prices, else buy
`amount / price` shares, threading cumulative shares and invested capital. -/
def dcaGo (amount : ℚ) (data : List (Nat × ℚ)) :
    List Nat → ℚ → ℚ → List DPur × ℚ × ℚ
  | [], sh, inv => ([], sh, inv)
  | d :: rest, sh, inv =>
    match lookupPrice data d with
    | none => dcaGo amount data rest sh inv
    | some p =>
      if p ≤ 0 then dcaGo amount data rest sh inv
      else
        let sh' := sh + amount / p
        let inv' := inv + amount
        let r := dcaGo amount data rest sh' inv'
        (⟨d, p, amount / p, amount, sh', inv'⟩ :: r.1, r.2)

/-- One recorded trailing-buy purchase (the dict appended at lines 325-333).
`idx` is the position in the normalized series, implicit in the source's
iteration order and recorded here for the statements about the run. -/
structure TPur where
  idx : Nat
  date : Nat
  price : ℚ
  shares : ℚ
  amountPaid : ℚ
  decline : ℚ
  cumShares : ℚ
  cumInvested : ℚ
  deriving DecidableEq, Repr

/-- The trailing-buy loop (lines 312-339): skip nonpositive prices without
touching the peak; otherwise compute the decline from the running peak
(guarded against a nonpositive peak), buy when it reaches the threshold and
reset the peak to the purchase price, and in every case update the peak with
`max` afterwards. -/
def trailingGo (amount trailing : ℚ) :
    List (Nat × ℚ) → Nat → ℚ → ℚ → ℚ → List TPur × ℚ × ℚ
  | [], _, _, sh, inv => ([], sh, inv)
  | (d, p) :: rest, i, peak, sh, inv =>
    if p ≤ 0 then trailingGo amount trailing rest (i + 1) peak sh inv
    else
      let decline := if 0 < peak then (peak - p) / peak * 100 else 0
      if trailing ≤ decline then
        let sh' := sh + amount / p
        let inv' := inv + amount
        let r := trailingGo amount trailing rest (i + 1) (max p p) sh' inv'
        (⟨i, d, p, amount / p, amount, decline, sh', inv'⟩ :: r.1, r.2)
      else trailingGo amount trailing rest (i + 1) (max peak p) sh inv

/-- The claim's description of the trailing-buy run, written directly from its
words: `highest_price` is the running maximum of the positive prices seen
since the last purchase, reset to the purchase price at each purchase, and a
purchase happens at a positive-price point exactly when
`(highest - price)/highest*100` reaches the threshold.  Emits
`(index, price, decline)` per purchase. -/
def specTrailing (trailing : ℚ) : List (Nat × ℚ) → Nat → ℚ → List (Nat × ℚ × ℚ)
  | [], _, _ => []
  | (_, p) :: rest, i, peak =>
    if 0 < p then
      let decline := (peak - p) / peak * 100
      if trailing ≤ decline then (i, p, decline) :: specTrailing trailing rest (i + 1) p
      else specTrailing trailing rest (i + 1) (max peak p)
    else specTrailing trailing rest (i + 1) peak

/-- The DCA value curve (lines 369-377): at series position `i`, the shares of
the `i`-th recorded purchase (if any) are added, then the holding is marked at
the point's price. -/
def dcaCumulative (data : List (Nat × ℚ)) (purs : List DPur) : List ℚ :=
  go data purs 0
where
  /-- Walk the series and the purchase ledger in lockstep. -/
  go : List (Nat × ℚ) → List DPur → ℚ → List ℚ
  | [], _, _ => []
  | (_, p) :: rest, [], sh => sh * p :: go rest [] sh
  | (_, p) :: rest, q :: qs, sh => (sh + q.shares) * p :: go rest qs (sh + q.shares)

/-- The trailing value curve (lines 383-388): at each point, the summed shares
of all purchases whose date is at most the point's date, marked at the point's
price. -/
def trailingCumulative (data : List (Nat × ℚ)) (purs : List TPur) : List ℚ :=
  data.map (fun pt =>
    ((purs.filter (fun t => t.date ≤ pt.1)).foldl (fun s t => s + t.shares) 0) * pt.2)

/-- `expected_periods[frequency]` / `trading_periods` (lines 255-263): the
length of the calendar date range over the input series' date span, with the
`Annual` entry floored at one (the spec's §4.1 resolver likewise guarantees at
least one entry for `Annual`). -/
def resolvedDatesCount (cal : Frequency → Nat → Nat → List Nat)
    (frequency : Frequency) (hist_data : List Row) : Nat :=
  let s := (hist_data.headD dRow).date
  let e := (hist_data.getLastD dRow).date
  match frequency with
  | .Annual => max 1 (cal .Annual s e).length
  | f => (cal f s e).length

/-- Modelled from the spec: "DCA's theoretical maximum invested capital
(`amount × trading_periods`)". -/
def dcaTheoreticalMax (amount : ℚ) (tradingPeriods : Nat) : ℚ :=
  amount * tradingPeriods

/-! ## Result assembly (`calculate_strategies`) -/

/-- The `summary` section of the result payload (lines 433-453). -/
structure Summary where
  years : ℤ
  months : ℤ
  startDate : Nat
  endDate : Nat
  dcaValue : ℚ
  trailingValue : ℚ
  lumpValue : ℚ
  dcaVsTrailing : ℚ
  dcaPctIncrease : ℚ
  trailingPctIncrease : ℚ
  lumpPctIncrease : ℚ
  dcaDollarIncrease : ℚ
  trailingDollarIncrease : ℚ
  lumpDollarIncrease : ℚ
  initialPrice : ℚ
  totalInvestment : ℚ
  rollingReturns : List (RollLabel × StratReturns)
  deriving DecidableEq, Repr

/-- The `performance` section (lines 454-462): parallel per-point arrays. -/
structure Performance where
  dates : List Nat
  dca : List ℚ
  trailing : List ℚ
  lump : List ℚ
  dcaInvested : List ℚ
  trailingInvested : List ℚ
  lumpInvested : List ℚ
  deriving DecidableEq, Repr

/-- The full result payload of `calculate_strategies`. -/
structure Payload where
  summary : Summary
  performance : Performance
  dcaTransactions : List DPur
  trailingTransactions : List TPur
  dailyPrices : List (Nat × ℚ × ℚ)
  deriving DecidableEq, Repr

/-- Line 190-193: the timeline filter keeps the rows of the last
`timeline_months` months, measured back from the full history's last date. -/
def timelineFiltered (monthsBack : Nat → Nat → Nat)
    (hist_data hist_data_full : List Row) (timeline_months : Nat) : List Row :=
  hist_data.filter
    (fun r => monthsBack (hist_data_full.getLastD dRow).date timeline_months ≤ r.date)

/-- Lines 212-216: the trading schedule is the calendar date range over the
filtered series' span, intersected with the dates present in the filtered
series. -/
def scheduleOf (cal : Frequency → Nat → Nat → List Nat) (frequency : Frequency)
    (filtered : List Row) : List Nat :=
  (cal frequency (filtered.headD dRow).date (filtered.getLastD dRow).date).filter
    (fun d => filtered.any (fun r => r.date == d))

/-- Lines 305-310: initialize the trailing strategy's tracked peak from the
first price of the normalized series; fails (`ValueError` re-raised with the
wrapping message) exactly when that price is nonpositive.  The empty case is
the re-raised `IndexError`; it is unreachable because the resampled series was
already checked nonempty. -/
def trailingInit (data : List (Nat × ℚ)) : Except String ℚ :=
  match data with
  | [] => .error "Error initializing trailing strategy: index out of range"
  | (_, p) :: _ =>
    if p ≤ 0 then
      .error "Error initializing trailing strategy: Initial price must be positive"
    else .ok p

/-- The first valid (> 0) price of a series. -/
def firstValidPrice (data : List (Nat × ℚ)) : Option ℚ :=
  (data.find? (fun q => decide (0 < q.2))).map (·.2)

/-- Lines 341-468 of `calculate_strategies`: given the normalized series
`dd :: drest` (with positive first and last prices, already checked), run the
simulators, build the per-point curves and assemble the result payload.  All
other intermediate series are recomputed from the arguments exactly as the
source computes them. -/
def assemblePayload (cal : Frequency → Nat → Nat → List Nat)
    (bl : Frequency → Nat → Nat) (monthsBack : Nat → Nat → Nat)
    (hist_data hist_data_full : List Row) (investment_amount : ℚ)
    (frequency : Frequency) (timeline_months : Nat) (trailing_percentage : ℚ)
    (dd : Nat × ℚ) (drest : List (Nat × ℚ)) : Payload :=
  let startDateFull := (hist_data_full.headD dRow).date
  let endDateFull := (hist_data_full.getLastD dRow).date
  let filtered := timelineFiltered monthsBack hist_data hist_data_full timeline_months
  let schedule := scheduleOf cal frequency filtered
  let trading_periods := resolvedDatesCount cal frequency hist_data
  let total_investment := investment_amount * trading_periods
  let dcaRes := dcaGo investment_amount (dd :: drest) schedule 0 0
  let tRes := trailingGo investment_amount trailing_percentage (dd :: drest) 0 dd.2 0 0
  let final_price := ((dd :: drest).getLastD dd).2
  let dca_total_shares := dcaRes.2.1
  let dca_invested := dcaRes.2.2
  let trailing_total_shares := tRes.2.1
  let dca_value := if 0 < dca_total_shares then dca_total_shares * final_price else 0
  let trailing_value :=
    if 0 < trailing_total_shares then trailing_total_shares * final_price else 0
  let lump_shares := if 0 < dd.2 then total_investment / dd.2 else 0
  let lump_value := if 0 < lump_shares then lump_shares * final_price else 0
  let trailing_invested := (tRes.1.length : ℚ) * investment_amount
  let lump_invested := total_investment
  let daysFull := endDateFull - startDateFull
  let totalYears : ℚ := (daysFull : ℚ) / 365.25
  let yearsLife : ℤ := ⌊totalYears⌋
  let monthsLife : ℤ := ⌊(totalYears - yearsLife) * 12⌋
  let rolling := calculate_rolling_returns (bl frequency) monthsBack
    (hist_data_full.map (fun r => (r.date, r.closePx)))
  { summary :=
    { years := yearsLife
      months := monthsLife
      startDate := startDateFull
      endDate := endDateFull
      dcaValue := round2 dca_value
      trailingValue := round2 trailing_value
      lumpValue := round2 lump_value
      dcaVsTrailing := round2 ((trailing_value - dca_value) / dca_value * 100)
      dcaPctIncrease := round2 ((dca_value - dca_invested) / dca_invested * 100)
      trailingPctIncrease :=
        if 0 < trailing_invested then
          round2 ((trailing_value - trailing_invested) / trailing_invested * 100)
        else 0
      lumpPctIncrease := round2 ((lump_value - lump_invested) / lump_invested * 100)
      dcaDollarIncrease := round2 (dca_value - dca_invested)
      trailingDollarIncrease := round2 (trailing_value - trailing_invested)
      lumpDollarIncrease := round2 (lump_value - lump_invested)
      initialPrice := (hist_data.headD dRow).closePx
      totalInvestment := round2 lump_invested
      rollingReturns := rolling }
    performance :=
    { dates := (dd :: drest).map (·.1)
      dca := dcaCumulative (dd :: drest) dcaRes.1
      trailing := trailingCumulative (dd :: drest) tRes.1
      lump := (dd :: drest).map (fun p => total_investment / dd.2 * p.2)
      dcaInvested := (List.range (dd :: drest).length).map
        (fun i => min (investment_amount * (i + 1 : Nat)) total_investment)
      trailingInvested := (dd :: drest).map (fun pt =>
        min (((tRes.1.filter (fun t => t.date ≤ pt.1)).length : ℚ)
          * investment_amount) total_investment)
      lumpInvested := List.replicate (dd :: drest).length total_investment }
    dcaTransactions := dcaRes.1
    trailingTransactions := tRes.1
    dailyPrices := hist_data.map (fun r => (r.date, r.openPx, r.closePx)) }

/-- `calculate_strategies` (lines 154-468).  Parameters `cal`, `bl`,
`monthsBack` model the pandas calendar primitives (see the file header);
everything else follows the source's control flow: validation, timeline
filtering, trading schedule, resampling, trading-period count, trailing
initialization, boundary-price checks, and the final-assembly divisions
(lines 443-446) whose zero divisors raise `ZeroDivisionError` and propagate
out.  Raised exceptions become `Except.error` carrying the message. -/
def calculate_strategies (cal : Frequency → Nat → Nat → List Nat)
    (bl : Frequency → Nat → Nat) (monthsBack : Nat → Nat → Nat)
    (hist_data hist_data_full : List Row) (investment_amount : ℚ)
    (frequency : Frequency) (timeline_months : Nat) (trailing_percentage : ℚ) :
    Except String Payload :=
  if hist_data.isEmpty ∨ hist_data_full.isEmpty then
    .error "Historical data cannot be empty"
  else if investment_amount ≤ 0 then .error "Investment amount must be positive"
  else if timeline_months = 0 then .error "Timeline must be positive"
  else if trailing_percentage ≤ 0 ∨ 100 ≤ trailing_percentage then
    .error "Trailing percentage must be between 0 and 100"
  else if (timelineFiltered monthsBack hist_data hist_data_full timeline_months).isEmpty then
    .error "Insufficient data for the specified timeline"
  else
    match resample_step (bl frequency) (hist_data.map (fun r => (r.date, r.closePx))) with
    | .error m => .error m
    | .ok d0 =>
      if resolvedDatesCount cal frequency hist_data = 0 then
        .error "No trading periods available after processing"
      else
        match denan d0 with
        | [] => .error "Error initializing trailing strategy: index out of range"
        | dd :: drest =>
          if dd.2 ≤ 0 then
            .error "Error initializing trailing strategy: Initial price must be positive"
          else if ((dd :: drest).getLastD dd).2 ≤ 0 ∨ dd.2 ≤ 0 then
            .error "Error calculating final portfolio values: Invalid price data for calculations"
          else if
              (if 0 < (dcaGo investment_amount (dd :: drest)
                  (scheduleOf cal frequency
                    (timelineFiltered monthsBack hist_data hist_data_full timeline_months)) 0 0).2.1
                then (dcaGo investment_amount (dd :: drest)
                  (scheduleOf cal frequency
                    (timelineFiltered monthsBack hist_data hist_data_full timeline_months)) 0 0).2.1
                  * ((dd :: drest).getLastD dd).2 else 0) = 0
              ∨ (dcaGo investment_amount (dd :: drest)
                  (scheduleOf cal frequency
                    (timelineFiltered monthsBack hist_data hist_data_full timeline_months)) 0 0).2.2 = 0
              ∨ investment_amount * (resolvedDatesCount cal frequency hist_data : ℚ) = 0 then
            .error "float division by zero"
          else
            .ok (assemblePayload cal bl monthsBack hist_data hist_data_full
              investment_amount frequency timeline_months trailing_percentage dd drest)

/-! ## Basic facts about the resampling machinery -/

theorem ffillGo_map_fst (cur : Option ℚ) (l : List (Nat × Option ℚ)) :
    (ffillGo cur l).map Prod.fst = l.map Prod.fst := by
  induction l generalizing cur with
  | nil => rfl
  | cons p rest ih => rcases p with ⟨d, v⟩; cases v <;> simp [ffillGo, ih]

theorem bfill_map_fst (l : List (Nat × Option ℚ)) :
    (bfill l).map Prod.fst = l.map Prod.fst := by
  simp [bfill, List.map_reverse, ffillGo_map_fst]

theorem fillIfNa_map_fst (l : List (Nat × Option ℚ)) :
    (fillIfNa l).map Prod.fst = l.map Prod.fst := by
  unfold fillIfNa
  split
  · rw [bfill_map_fst, ffill, ffillGo_map_fst]
  · rfl

theorem resampleLast_map_fst (b : Nat → Nat) (r : Nat × ℚ) (rs : List (Nat × ℚ)) :
    (resampleLast b (r :: rs)).map Prod.fst
      = labelRange b (b r.1) (b (((r :: rs).getLastD r).1)) := by
  simp [resampleLast, List.map_map, Function.comp_def]

theorem mem_rangeList {s e d : Nat} : d ∈ rangeList s e ↔ s ≤ d ∧ d ≤ e := by
  simp only [rangeList, List.mem_map, List.mem_range]
  constructor
  · rintro ⟨k, hk, rfl⟩; omega
  · rintro ⟨h1, h2⟩; exact ⟨d - s, by omega, by omega⟩

theorem mem_labelRange {b : Nat → Nat} {s e d : Nat} :
    d ∈ labelRange b s e ↔ b d = d ∧ s ≤ d ∧ d ≤ e := by
  simp only [labelRange, List.mem_filter, mem_rangeList, beq_iff_eq]
  tauto

theorem rangeList_pairwise_lt (s e : Nat) : (rangeList s e).Pairwise (· < ·) := by
  exact (List.pairwise_lt_range _).map _ (by omega)

theorem labelRange_pairwise_lt (b : Nat → Nat) (s e : Nat) :
    (labelRange b s e).Pairwise (· < ·) :=
  (rangeList_pairwise_lt s e).filter _

theorem labelRange_nodup (b : Nat → Nat) (s e : Nat) : (labelRange b s e).Nodup :=
  (labelRange_pairwise_lt b s e).imp Nat.ne_of_lt

theorem dedupKeepFirst_eq_self {α : Type} (l : List (Nat × α)) (seen : List Nat)
    (hseen : ∀ p ∈ l, p.1 ∉ seen) (hnd : (l.map Prod.fst).Nodup) :
    dedupKeepFirst l seen = l := by
  induction l generalizing seen with
  | nil => rfl
  | cons p rest ih =>
    simp only [List.map_cons, List.nodup_cons] at hnd
    have hp : p.1 ∉ seen := hseen p (List.mem_cons_self _ _)
    have hcontains : seen.contains p.1 = false := by
      simpa using hp
    rw [dedupKeepFirst, hcontains]
    simp only [Bool.false_eq_true, if_false]
    congr 1
    apply ih
    · intro q hq
      intro hmem
      rcases List.mem_cons.mp hmem with h | h
      · exact hnd.1 (h ▸ List.mem_map_of_mem Prod.fst hq)
      · exact hseen q (List.mem_cons_of_mem _ hq) h
    · exact hnd.2

/-- `ffillGo` threading a non-`NaN` current value yields no `NaN`s. -/
theorem ffillGo_all_isSome_of_cur {cur : Option ℚ} (hcur : cur.isSome)
    (l : List (Nat × Option ℚ)) : ∀ q ∈ ffillGo cur l, q.2.isSome := by
  induction l generalizing cur with
  | nil => simp [ffillGo]
  | cons p rest ih =>
    rcases p with ⟨d, v⟩
    cases v with
    | none =>
      intro q hq
      rcases List.mem_cons.mp hq with rfl | hq
      · exact hcur
      · exact ih hcur q hq
    | some w =>
      intro q hq
      rcases List.mem_cons.mp hq with rfl | hq
      · rfl
      · exact ih Option.isSome_some q hq

/-- `ffillGo` of an all-`some` list is all-`some` for any carried value. -/
theorem ffillGo_all_isSome_of_input {cur : Option ℚ} {l : List (Nat × Option ℚ)}
    (hl : ∀ p ∈ l, p.2.isSome) : ∀ q ∈ ffillGo cur l, q.2.isSome := by
  induction l generalizing cur with
  | nil => simp [ffillGo]
  | cons p rest ih =>
    rcases p with ⟨d, v⟩
    cases v with
    | none => exact absurd (hl (d, none) (List.mem_cons_self _ _)) (by simp)
    | some w =>
      intro q hq
      rcases List.mem_cons.mp hq with rfl | hq
      · rfl
      · exact ih (fun p hp => hl p (List.mem_cons_of_mem _ hp)) q hq

/-- The value carried by `ffillGo` after it has consumed `l`. -/
def carryAfter (cur : Option ℚ) : List (Nat × Option ℚ) → Option ℚ
  | [] => cur
  | (_, some q) :: rest => carryAfter (some q) rest
  | (_, none) :: rest => carryAfter cur rest

theorem ffillGo_append (cur : Option ℚ) (l₁ l₂ : List (Nat × Option ℚ)) :
    ffillGo cur (l₁ ++ l₂) = ffillGo cur l₁ ++ ffillGo (carryAfter cur l₁) l₂ := by
  induction l₁ generalizing cur with
  | nil => rfl
  | cons p rest ih =>
    rcases p with ⟨d, v⟩
    cases v <;> simp [ffillGo, carryAfter, ih]

/-- Forward- then back-filling a series that has at least one non-`NaN` value
leaves no `NaN` at all. -/
theorem bfill_ffill_all_isSome {l : List (Nat × Option ℚ)}
    (h : ∃ p ∈ l, p.2.isSome) : ∀ q ∈ bfill (ffill l), q.2.isSome := by
  obtain ⟨p, hp, hps⟩ := h
  obtain ⟨d, v, rfl⟩ : ∃ d v, p = (d, some v) := by
    rcases p with ⟨d, v⟩
    cases v with
    | none => exact absurd hps (by simp)
    | some w => exact ⟨d, w, rfl⟩
  obtain ⟨l₁, l₂, rfl⟩ := List.append_of_mem hp
  have hfl : ffill (l₁ ++ (d, some v) :: l₂)
      = ffillGo none l₁ ++ (d, some v) :: ffillGo (some v) l₂ := by
    rw [ffill, ffillGo_append]
    rfl
  intro q hq
  rw [bfill, hfl] at hq
  rw [List.mem_reverse] at hq
  have hrev : (ffillGo none l₁ ++ (d, some v) :: ffillGo (some v) l₂).reverse
      = (ffillGo (some v) l₂).reverse ++ (d, some v) :: (ffillGo none l₁).reverse := by
    simp
  rw [hrev, ffillGo_append] at hq
  rcases List.mem_append.mp hq with hq | hq
  · exact ffillGo_all_isSome_of_input
      (fun p hp => ffillGo_all_isSome_of_cur Option.isSome_some l₂ p (List.mem_reverse.mp hp)) q hq
  · rw [show ffillGo (carryAfter none (ffillGo (some v) l₂).reverse)
        ((d, some v) :: (ffillGo none l₁).reverse)
        = (d, some v) :: ffillGo (some v) (ffillGo none l₁).reverse from rfl] at hq
    rcases List.mem_cons.mp hq with rfl | hq'
    · rfl
    · exact ffillGo_all_isSome_of_cur Option.isSome_some _ q hq'

theorem resampleLast_map_fst_of_ne_nil (b : Nat → Nat) (raw : List (Nat × ℚ))
    (h : raw ≠ []) :
    (resampleLast b raw).map Prod.fst
      = labelRange b (b (raw.headD (0, 0)).1) (b (raw.getLastD (0, 0)).1) := by
  cases raw with
  | nil => exact absurd rfl h
  | cons r rs =>
    rw [resampleLast_map_fst]
    obtain ⟨x, hx⟩ := Option.isSome_iff_exists.mp
      ((List.getLast?_isSome).mpr (List.cons_ne_nil r rs) : (r :: rs).getLast?.isSome)
    simp [List.getLastD_eq_getLast?, hx]

theorem chunksOf_of_length_le {α : Type} (n : Nat) (l : List α)
    (h : l.length ≤ n) (hl : l ≠ []) : chunksOf n l = [l] := by
  cases l with
  | nil => exact absurd rfl hl
  | cons a t =>
    rw [chunksOf]
    have h1 : t.take (n - 1) = t := List.take_of_length_le (by simp at h; omega)
    have h2 : t.drop (n - 1) = [] := List.drop_eq_nil_of_le (by simp at h; omega)
    rw [h1, h2, chunksOf]

theorem chunksOf_append {α : Type} (n : Nat) (l₁ l₂ : List α)
    (h : l₁.length = n) (hn : 0 < n) :
    chunksOf n (l₁ ++ l₂) = l₁ :: chunksOf n l₂ := by
  cases l₁ with
  | nil => simp at h; omega
  | cons a t =>
    rw [List.cons_append, chunksOf]
    have ht : t.length = n - 1 := by simp at h; omega
    have h1 : (t ++ l₂).take (n - 1) = t := by
      rw [← ht]; exact List.take_left t l₂
    have h2 : (t ++ l₂).drop (n - 1) = l₂ := by
      rw [← ht]; exact List.drop_left t l₂
    rw [h1, h2]

/-! ## C6: chunked versus whole-series resampling -/

/-- The `i`-th business day after the epoch Monday. -/
def bd (i : Nat) : Nat := 7 * (i / 5) + i % 5

/-- First chunk of the C6 input: 1000 consecutive business-day rows. -/
def c6chunkA : List (Nat × ℚ) := (List.range 1000).map (fun i => (bd i, 1))

/-- A 1001-row series: 1000 consecutive business days, then one more row
after a nine-business-day gap. -/
def c6raw : List (Nat × ℚ) := c6chunkA ++ [(bd 1009, 1)]

theorem c6chunkA_length : c6chunkA.length = 1000 := by
  simp [c6chunkA]

theorem c6_chunks : chunksOf 1000 c6raw = [c6chunkA, [(bd 1009, 1)]] := by
  rw [c6raw, chunksOf_append 1000 _ _ c6chunkA_length (by norm_num),
    chunksOf_of_length_le 1000 _ (by simp) (by simp)]

theorem c6_chunked_fst :
    (resample_chunked dailyLabel c6raw).map Prod.fst
      = labelRange dailyLabel 0 1397 ++ labelRange dailyLabel 1411 1411 := by
  rw [resample_chunked, c6_chunks]
  simp only [List.map_cons, List.map_nil, List.flatten_cons, List.flatten_nil,
    List.append_nil, List.map_append]
  rw [fillIfNa_map_fst, fillIfNa_map_fst,
    resampleLast_map_fst_of_ne_nil _ _ (by simp [c6chunkA]),
    resampleLast_map_fst_of_ne_nil _ _ (by simp)]
  have h1 : (dailyLabel (c6chunkA.headD (0, 0)).1) = 0 := by decide
  have h2 : (dailyLabel (c6chunkA.getLastD (0, 0)).1) = 1397 := by decide
  have h3 : (dailyLabel (([((bd 1009 : Nat), (1 : ℚ))].headD (0, 0)).1)) = 1411 := by decide
  have h4 : (dailyLabel (([((bd 1009 : Nat), (1 : ℚ))].getLastD (0, 0)).1)) = 1411 := by decide
  rw [h1, h2, h3, h4]

theorem c6_whole_fst :
    (resample_whole dailyLabel c6raw).map Prod.fst = labelRange dailyLabel 0 1411 := by
  rw [resample_whole, fillIfNa_map_fst,
    resampleLast_map_fst_of_ne_nil _ _ (by simp [c6raw, c6chunkA])]
  have h1 : (dailyLabel (c6raw.headD (0, 0)).1) = 0 := by decide
  have h2 : (dailyLabel (c6raw.getLastD (0, 0)).1) = 1411 := by decide
  rw [h1, h2]

theorem c6_chunked_keys_nodup :
    ((resample_chunked dailyLabel c6raw).map Prod.fst).Nodup := by
  rw [c6_chunked_fst]
  refine (labelRange_nodup _ _ _).append (labelRange_nodup _ _ _) ?_
  intro x hx hmem
  have h1 := (mem_labelRange.mp hx).2.2
  have h2 := (mem_labelRange.mp hmem).2.1
  omega

/-- C6 counterexample input check: the deduplicated chunked resample has 1001
rows (the gap between chunks is never materialized) while the whole-series
resample has 1010 rows (gap buckets appear and are forward-filled). -/
theorem c6_lengths :
    (dedupKeepFirst (resample_chunked dailyLabel c6raw) []).length = 1001 ∧
    (dedupKeepFirst (resample_whole dailyLabel c6raw) []).length = 1010 := by
  constructor
  · rw [dedupKeepFirst_eq_self _ _ (by simp) c6_chunked_keys_nodup]
    have h := congrArg List.length c6_chunked_fst
    rw [List.length_map] at h
    rw [h]
    decide
  · rw [dedupKeepFirst_eq_self (resample_whole dailyLabel c6raw) []
      (by simp) (by rw [c6_whole_fst]; exact labelRange_nodup _ _ _)]
    have h := congrArg List.length c6_whole_fst
    rw [List.length_map] at h
    rw [h]
    decide

/-- C6 counterexample: on a concrete 1001-row business-day series with a
nine-business-day gap before its last row, the fixed-1000-row chunked
resampling pipeline (per-chunk resample + fill, concatenate, drop duplicate
index entries keeping the first) does not equal the same steps applied to the
whole series at once: the whole-series pass materializes and fills the gap
buckets, the chunked pass never creates them. -/
theorem claim_c6_counterexample :
    dedupKeepFirst (resample_chunked dailyLabel c6raw) [] ≠
      dedupKeepFirst (resample_whole dailyLabel c6raw) [] := by
  intro h
  have hl := congrArg List.length h
  rw [c6_lengths.1, c6_lengths.2] at hl
  exact absurd hl (by decide)

/-- C6 amended: chunked resampling agrees with whole-series resampling for
every series of at most 1000 rows (a single chunk, which is exactly when
`calculate_strategies` takes the chunked path's `else` branch); for longer
series the two can differ (see the counterexample above). -/
theorem claim_c6_amended (b : Nat → Nat) (raw : List (Nat × ℚ))
    (h : raw.length ≤ 1000) : resample_chunked b raw = resample_whole b raw := by
  cases hr : raw with
  | nil => simp [resample_chunked, resample_whole, chunksOf, resampleLast, fillIfNa, hasNone]
  | cons a t =>
    rw [resample_chunked, chunksOf_of_length_le 1000 _ (hr ▸ h) (by simp)]
    simp [resample_whole]

/-- Inversion of a successful `calculate_strategies` run: every validation and
boundary check passed, and the payload is the assembled one for the resampled
series. -/
theorem calc_ok_inv {cal : Frequency → Nat → Nat → List Nat}
    {bl : Frequency → Nat → Nat} {monthsBack : Nat → Nat → Nat}
    {hist_data hist_data_full : List Row} {investment_amount : ℚ}
    {frequency : Frequency} {timeline_months : Nat} {trailing_percentage : ℚ}
    {p : Payload}
    (h : calculate_strategies cal bl monthsBack hist_data hist_data_full
      investment_amount frequency timeline_months trailing_percentage = .ok p) :
    ∃ d0 dd drest,
      resample_step (bl frequency) (hist_data.map (fun r => (r.date, r.closePx))) = .ok d0 ∧
      denan d0 = dd :: drest ∧ 0 < dd.2 ∧ 0 < ((dd :: drest).getLastD dd).2 ∧
      resolvedDatesCount cal frequency hist_data ≠ 0 ∧
      0 < investment_amount ∧
      p = assemblePayload cal bl monthsBack hist_data hist_data_full
        investment_amount frequency timeline_months trailing_percentage dd drest := by
  unfold calculate_strategies at h
  by_cases h1 : hist_data.isEmpty ∨ hist_data_full.isEmpty
  · rw [if_pos h1] at h; exact absurd h (by simp)
  rw [if_neg h1] at h
  by_cases h2 : investment_amount ≤ 0
  · rw [if_pos h2] at h; exact absurd h (by simp)
  rw [if_neg h2] at h
  by_cases h3 : timeline_months = 0
  · rw [if_pos h3] at h; exact absurd h (by simp)
  rw [if_neg h3] at h
  by_cases h4 : trailing_percentage ≤ 0 ∨ 100 ≤ trailing_percentage
  · rw [if_pos h4] at h; exact absurd h (by simp)
  rw [if_neg h4] at h
  by_cases h5 : (timelineFiltered monthsBack hist_data hist_data_full timeline_months).isEmpty
  · rw [if_pos h5] at h; exact absurd h (by simp)
  rw [if_neg h5] at h
  split at h
  next m hR => exact absurd h (by simp)
  next d0 hR =>
    by_cases h6 : resolvedDatesCount cal frequency hist_data = 0
    · rw [if_pos h6] at h; exact absurd h (by simp)
    rw [if_neg h6] at h
    split at h
    next hD => exact absurd h (by simp)
    next dd drest hD =>
      by_cases h7 : dd.2 ≤ 0
      · rw [if_pos h7] at h; exact absurd h (by simp)
      rw [if_neg h7] at h
      by_cases h8 : ((dd :: drest).getLastD dd).2 ≤ 0 ∨ dd.2 ≤ 0
      · rw [if_pos h8] at h; exact absurd h (by simp)
      rw [if_neg h8] at h
      push_neg at h7 h8
      by_cases h9 : (if 0 < (dcaGo investment_amount (dd :: drest)
            (scheduleOf cal frequency
              (timelineFiltered monthsBack hist_data hist_data_full timeline_months)) 0 0).2.1
          then (dcaGo investment_amount (dd :: drest)
            (scheduleOf cal frequency
              (timelineFiltered monthsBack hist_data hist_data_full timeline_months)) 0 0).2.1
            * ((dd :: drest).getLastD dd).2 else 0) = 0
        ∨ (dcaGo investment_amount (dd :: drest)
            (scheduleOf cal frequency
              (timelineFiltered monthsBack hist_data hist_data_full timeline_months)) 0 0).2.2 = 0
        ∨ investment_amount * (resolvedDatesCount cal frequency hist_data : ℚ) = 0
      · rw [if_pos h9] at h; exact absurd h (by simp)
      rw [if_neg h9] at h
      exact ⟨d0, dd, drest, hR, hD, h7, h8.1, h6, lt_of_not_le h2, (Except.ok.inj h).symm⟩

/-! ## Concrete instances shared by the witnesses: the `Daily` calendar is the
business-day range and the `Daily` bucket label map the business-day label map;
the other frequencies are not exercised.  The timeline offset instance places
the timeline start at the epoch, so no row is filtered out. -/

def wCal : Frequency → Nat → Nat → List Nat := fun _ s e => bdays s e

def wBl : Frequency → Nat → Nat := fun _ => dailyLabel

def wMB : Nat → Nat → Nat := fun _ _ => 0

/-- A two-business-day constant-price history. -/
def wRaw : List Row := [⟨0, 1, 1⟩, ⟨1, 1, 1⟩]

/-- The payload the concrete witness run assembles. -/
def wPayload : Payload :=
  assemblePayload wCal wBl wMB wRaw wRaw 1 .Daily 12 5 (0, 1) [(1, 1)]

/-! ## Running-total facts about the simulators -/

theorem dcaGo_le (amount : ℚ) (data : List (Nat × ℚ)) (sched : List Nat)
    (sh inv : ℚ) (ha : 0 < amount) :
    sh ≤ (dcaGo amount data sched sh inv).2.1
      ∧ inv ≤ (dcaGo amount data sched sh inv).2.2 := by
  induction sched generalizing sh inv with
  | nil => simp [dcaGo]
  | cons d rest ih =>
    rw [dcaGo]
    cases hl : lookupPrice data d with
    | none => exact ih sh inv
    | some p =>
      simp only []
      by_cases hp : p ≤ 0
      · rw [if_pos hp]; exact ih sh inv
      · rw [if_neg hp]
        push_neg at hp
        have hq : 0 < amount / p := div_pos ha hp
        have := ih (sh + amount / p) (inv + amount)
        exact ⟨le_trans (by linarith) this.1, le_trans (by linarith) this.2⟩

theorem dcaGo_nil_stats (amount : ℚ) (data : List (Nat × ℚ)) (sched : List Nat)
    (sh inv : ℚ) (h : (dcaGo amount data sched sh inv).1 = []) :
    (dcaGo amount data sched sh inv).2.1 = sh
      ∧ (dcaGo amount data sched sh inv).2.2 = inv := by
  induction sched generalizing sh inv with
  | nil => simp [dcaGo]
  | cons d rest ih =>
    rw [dcaGo] at h ⊢
    split at h
    next heq =>
      try simp only [heq]
      exact ih sh inv h
    next p heq =>
      try simp only [heq]
      by_cases hp : p ≤ 0
      · rw [if_pos hp] at h ⊢
        exact ih sh inv h
      · rw [if_neg hp] at h
        simp at h

theorem dcaGo_pos_stats (amount : ℚ) (data : List (Nat × ℚ)) (sched : List Nat)
    (sh inv : ℚ) (ha : 0 < amount)
    (h : (dcaGo amount data sched sh inv).1 ≠ []) :
    sh < (dcaGo amount data sched sh inv).2.1
      ∧ inv < (dcaGo amount data sched sh inv).2.2 := by
  induction sched generalizing sh inv with
  | nil => simp [dcaGo] at h
  | cons d rest ih =>
    rw [dcaGo] at h ⊢
    split at h
    next heq =>
      try simp only [heq]
      exact ih sh inv h
    next p heq =>
      try simp only [heq]
      by_cases hp : p ≤ 0
      · rw [if_pos hp] at h ⊢
        exact ih sh inv h
      · rw [if_neg hp]
        push_neg at hp
        have hq : 0 < amount / p := div_pos ha hp
        have hle := dcaGo_le amount data rest (sh + amount / p) (inv + amount) ha
        exact ⟨lt_of_lt_of_le (by linarith) hle.1, lt_of_lt_of_le (by linarith) hle.2⟩

theorem trailingGo_nil_stats (amount trailing : ℚ) (data : List (Nat × ℚ))
    (i : Nat) (peak sh inv : ℚ)
    (h : (trailingGo amount trailing data i peak sh inv).1 = []) :
    (trailingGo amount trailing data i peak sh inv).2.1 = sh
      ∧ (trailingGo amount trailing data i peak sh inv).2.2 = inv := by
  induction data generalizing i peak sh inv with
  | nil => simp [trailingGo]
  | cons q rest ih =>
    rcases q with ⟨d, p⟩
    rw [trailingGo] at h ⊢
    by_cases hp : p ≤ 0
    · rw [if_pos hp] at h ⊢; exact ih _ _ sh inv h
    · rw [if_neg hp] at h ⊢
      by_cases hdec : trailing ≤ (if 0 < peak then (peak - p) / peak * 100 else 0)
      · rw [if_pos hdec] at h; simp at h
      · rw [if_neg hdec] at h ⊢; exact ih _ _ sh inv h

/-- Forward construction of a successful `calculate_strategies` run: when every
validation and boundary check passes, the run returns the assembled payload. -/
theorem calc_ok_intro {cal : Frequency → Nat → Nat → List Nat}
    {bl : Frequency → Nat → Nat} {monthsBack : Nat → Nat → Nat}
    {hist_data hist_data_full : List Row} {investment_amount : ℚ}
    {frequency : Frequency} {timeline_months : Nat} {trailing_percentage : ℚ}
    {d0 : List (Nat × Option ℚ)} {dd : Nat × ℚ} {drest : List (Nat × ℚ)}
    (h1 : hist_data ≠ []) (h1b : hist_data_full ≠ [])
    (h2 : 0 < investment_amount) (h3 : timeline_months ≠ 0)
    (h4a : 0 < trailing_percentage) (h4b : trailing_percentage < 100)
    (h5 : timelineFiltered monthsBack hist_data hist_data_full timeline_months ≠ [])
    (hR : resample_step (bl frequency) (hist_data.map (fun r => (r.date, r.closePx)))
      = .ok d0)
    (h6 : resolvedDatesCount cal frequency hist_data ≠ 0)
    (hD : denan d0 = dd :: drest)
    (h7 : 0 < dd.2) (h8 : 0 < ((dd :: drest).getLastD dd).2)
    (h9 : 0 < (dcaGo investment_amount (dd :: drest)
      (scheduleOf cal frequency
        (timelineFiltered monthsBack hist_data hist_data_full timeline_months)) 0 0).2.1) :
    calculate_strategies cal bl monthsBack hist_data hist_data_full
      investment_amount frequency timeline_months trailing_percentage
      = .ok (assemblePayload cal bl monthsBack hist_data hist_data_full
          investment_amount frequency timeline_months trailing_percentage dd drest) := by
  have hledger : (dcaGo investment_amount (dd :: drest)
      (scheduleOf cal frequency
        (timelineFiltered monthsBack hist_data hist_data_full timeline_months)) 0 0).1 ≠ [] := by
    intro hnil
    have hz := dcaGo_nil_stats _ _ _ _ _ hnil
    rw [hz.1] at h9
    exact lt_irrefl 0 h9
  have h10 : 0 < (dcaGo investment_amount (dd :: drest)
      (scheduleOf cal frequency
        (timelineFiltered monthsBack hist_data hist_data_full timeline_months)) 0 0).2.2 :=
    (dcaGo_pos_stats _ _ _ _ _ h2 hledger).2
  unfold calculate_strategies
  rw [if_neg (by simp [h1, h1b])]
  rw [if_neg (not_le.mpr h2)]
  rw [if_neg h3]
  rw [if_neg (by push_neg; exact ⟨h4a, h4b⟩)]
  rw [if_neg (by simpa using h5)]
  simp only [hR]
  rw [if_neg h6]
  simp only [hD]
  rw [if_neg (not_le.mpr h7)]
  rw [if_neg (by push_neg; exact ⟨h8, h7⟩)]
  rw [if_neg ?_]
  push_neg
  refine ⟨?_, ne_of_gt h10, ?_⟩
  · rw [if_pos h9]
    exact ne_of_gt (mul_pos h9 h8)
  · exact ne_of_gt (mul_pos h2 (by exact_mod_cast Nat.pos_of_ne_zero h6))

/-! ## Evaluation of the shared concrete witness run -/

theorem wFiltered : timelineFiltered wMB wRaw wRaw 12 = wRaw := by
  simp [timelineFiltered, wMB, wRaw]

theorem wSchedule : scheduleOf wCal .Daily wRaw = [0, 1] := by
  simp [scheduleOf, wCal, wRaw, bdays, isBDay, rangeList, dRow, List.filter]

theorem wResample :
    resample_step (wBl .Daily) (wRaw.map (fun r => (r.date, r.closePx)))
      = .ok [(0, some 1), (1, some 1)] := by
  simp [resample_step, resample_whole, resampleLast, wBl, wRaw, dailyLabel, labelRange,
    rangeList, lastIn, fillIfNa, hasNone, dedupKeepFirst, List.filter]

theorem wDca : dcaGo 1 [((0 : Nat), (1 : ℚ)), (1, 1)] [0, 1] 0 0
    = ([⟨0, 1, 1, 1, 1, 1⟩, ⟨1, 1, 1, 1, 2, 2⟩], 2, 2) := by
  norm_num [dcaGo, lookupPrice, List.find?_cons_of_pos, List.find?_cons_of_neg,
    List.find?_singleton]

theorem wTrailing : trailingGo 1 5 [((0 : Nat), (1 : ℚ)), (1, 1)] 0 1 0 0 = ([], 0, 0) := by
  norm_num [trailingGo]

/-- The shared witness run succeeds and returns the assembled payload. -/
theorem wRun_eq :
    calculate_strategies wCal wBl wMB wRaw wRaw 1 .Daily 12 5 = .ok wPayload := by
  have hD : denan [((0 : Nat), some (1 : ℚ)), (1, some 1)] = (0, 1) :: [(1, 1)] := by
    simp [denan]
  exact calc_ok_intro
    (by simp [wRaw]) (by simp [wRaw]) (by norm_num) (by norm_num) (by norm_num)
    (by norm_num) (by rw [wFiltered]; simp [wRaw]) wResample (by decide)
    hD (by norm_num)
    (by norm_num [List.getLastD])
    (by rw [wFiltered, wSchedule, wDca]; norm_num)

/-- C7: the Trailing-Buy simulator initializes its tracked peak to the first
price of the normalized series — which, on success, is the first valid (> 0)
price — and it fails with the `InvalidInitialPriceError`-class failure exactly
when that initial price is ≤ 0; in that case the whole analysis aborts with
the error and no payload. -/
theorem claim_c7_trailing_init (cal : Frequency → Nat → Nat → List Nat)
    (bl : Frequency → Nat → Nat) (monthsBack : Nat → Nat → Nat)
    (hist_data hist_data_full : List Row) (investment_amount : ℚ)
    (frequency : Frequency) (timeline_months : Nat) (trailing_percentage : ℚ)
    (d0 : List (Nat × Option ℚ)) (dd : Nat × ℚ) (drest : List (Nat × ℚ))
    (hR : resample_step (bl frequency) (hist_data.map (fun r => (r.date, r.closePx)))
      = .ok d0)
    (hD : denan d0 = dd :: drest) :
    ((∃ m, trailingInit (dd :: drest) = .error m) ↔ dd.2 ≤ 0)
    ∧ (∀ h0, trailingInit (dd :: drest) = .ok h0 →
        h0 = dd.2 ∧ firstValidPrice (dd :: drest) = some dd.2)
    ∧ (hist_data ≠ [] → hist_data_full ≠ [] → 0 < investment_amount →
        timeline_months ≠ 0 → 0 < trailing_percentage → trailing_percentage < 100 →
        timelineFiltered monthsBack hist_data hist_data_full timeline_months ≠ [] →
        resolvedDatesCount cal frequency hist_data ≠ 0 →
        dd.2 ≤ 0 →
        calculate_strategies cal bl monthsBack hist_data hist_data_full
          investment_amount frequency timeline_months trailing_percentage
          = .error "Error initializing trailing strategy: Initial price must be positive") := by
  obtain ⟨d, pv⟩ := dd
  refine ⟨?_, ?_, ?_⟩
  · constructor
    · rintro ⟨m, hm⟩
      by_contra hp
      push_neg at hp
      rw [trailingInit, if_neg (not_le.mpr hp)] at hm
      exact Except.noConfusion hm
    · intro hp
      exact ⟨_, by rw [trailingInit, if_pos hp]⟩
  · intro h0 hok
    by_cases hp : pv ≤ 0
    · rw [trailingInit, if_pos hp] at hok
      exact Except.noConfusion hok
    · rw [trailingInit, if_neg hp] at hok
      push_neg at hp
      refine ⟨(Except.ok.inj hok).symm, ?_⟩
      simp [firstValidPrice, List.find?_cons_of_pos, hp]
  · intro h1 h1b h2 h3 h4a h4b h5 h6 h7
    unfold calculate_strategies
    rw [if_neg (by simp [h1, h1b])]
    rw [if_neg (not_le.mpr h2)]
    rw [if_neg h3]
    rw [if_neg (by push_neg; exact ⟨h4a, h4b⟩)]
    rw [if_neg (by simpa using h5)]
    simp only [hR]
    rw [if_neg h6]
    simp only [hD]
    rw [if_pos h7]

/-- Witness for `claim_c7_trailing_init`: a one-row history whose close is
negative makes the whole analysis abort with the initialization error. -/
theorem claim_c7_trailing_init_witness :
    ((-1 : ℚ) ≤ 0) ∧
      calculate_strategies wCal wBl wMB [⟨0, 1, -1⟩] [⟨0, 1, -1⟩] 1 .Daily 12 5
        = .error "Error initializing trailing strategy: Initial price must be positive" := by
  have hR : resample_step (wBl .Daily)
      (([⟨0, 1, -1⟩] : List Row).map (fun r => (r.date, r.closePx)))
      = .ok [(0, some (-1))] := by
    simp [resample_step, resample_whole, resampleLast, wBl, dailyLabel, labelRange,
      rangeList, lastIn, fillIfNa, hasNone, dedupKeepFirst, List.filter]
  have hD : denan [((0 : Nat), some (-1 : ℚ))] = [(0, -1)] := by simp [denan]
  refine ⟨by norm_num, ?_⟩
  exact (claim_c7_trailing_init wCal wBl wMB [⟨0, 1, -1⟩] [⟨0, 1, -1⟩] 1 .Daily 12 5
      [(0, some (-1))] (0, -1) [] hR hD).2.2
    (by simp) (by simp) (by norm_num) (by norm_num) (by norm_num) (by norm_num)
    (by simp [timelineFiltered, wMB]) (by decide) (by norm_num)

/-- C8: `calculate_strategies` fails with an `InsufficientDataError`-class
`ValueError` (and returns no payload) whenever the input series is empty, the
timeline-filtered series is empty, or the frequency-resampled series has zero
observations. -/
theorem claim_c8_insufficient_data (cal : Frequency → Nat → Nat → List Nat)
    (bl : Frequency → Nat → Nat) (monthsBack : Nat → Nat → Nat)
    (hist_data hist_data_full : List Row) (investment_amount : ℚ)
    (frequency : Frequency) (timeline_months : Nat) (trailing_percentage : ℚ) :
    (hist_data = [] ∨ hist_data_full = [] →
      calculate_strategies cal bl monthsBack hist_data hist_data_full
        investment_amount frequency timeline_months trailing_percentage
        = .error "Historical data cannot be empty")
    ∧ (hist_data ≠ [] → hist_data_full ≠ [] → 0 < investment_amount →
        timeline_months ≠ 0 → 0 < trailing_percentage → trailing_percentage < 100 →
        timelineFiltered monthsBack hist_data hist_data_full timeline_months = [] →
        calculate_strategies cal bl monthsBack hist_data hist_data_full
          investment_amount frequency timeline_months trailing_percentage
          = .error "Insufficient data for the specified timeline")
    ∧ (∀ m, hist_data ≠ [] → hist_data_full ≠ [] → 0 < investment_amount →
        timeline_months ≠ 0 → 0 < trailing_percentage → trailing_percentage < 100 →
        timelineFiltered monthsBack hist_data hist_data_full timeline_months ≠ [] →
        resample_step (bl frequency) (hist_data.map (fun r => (r.date, r.closePx)))
          = .error m →
        calculate_strategies cal bl monthsBack hist_data hist_data_full
          investment_amount frequency timeline_months trailing_percentage = .error m)
    ∧ (∀ raw : List (Nat × ℚ),
        (if 1000 < raw.length then resample_chunked (bl frequency) raw
          else resample_whole (bl frequency) raw) = [] →
        resample_step (bl frequency) raw
          = .error "Error resampling data: Insufficient data after resampling") := by
  refine ⟨?_, ?_, ?_, ?_⟩
  · intro h
    unfold calculate_strategies
    rw [if_pos (by rcases h with h | h <;> simp [h])]
  · intro h1 h1b h2 h3 h4a h4b h5
    unfold calculate_strategies
    rw [if_neg (by simp [h1, h1b])]
    rw [if_neg (not_le.mpr h2)]
    rw [if_neg h3]
    rw [if_neg (by push_neg; exact ⟨h4a, h4b⟩)]
    rw [if_pos (by simp [h5])]
  · intro m h1 h1b h2 h3 h4a h4b h5 hR
    unfold calculate_strategies
    rw [if_neg (by simp [h1, h1b])]
    rw [if_neg (not_le.mpr h2)]
    rw [if_neg h3]
    rw [if_neg (by push_neg; exact ⟨h4a, h4b⟩)]
    rw [if_neg (by simpa using h5)]
    simp only [hR]
  · intro raw h
    rw [resample_step]
    simp only [h]
    rfl

/-- Witness for `claim_c8_insufficient_data`: an empty input series yields the
empty-data error. -/
theorem claim_c8_insufficient_data_witness :
    calculate_strategies wCal wBl wMB [] [] 1 .Daily 12 5
      = .error "Historical data cannot be empty" :=
  (claim_c8_insufficient_data wCal wBl wMB [] [] 1 .Daily 12 5).1 (Or.inl rfl)

theorem trailingGo_spec_aux (amount trailing : ℚ) (data : List (Nat × ℚ))
    (i : Nat) (peak sh inv : ℚ) (hpos : 0 < peak) :
    ((trailingGo amount trailing data i peak sh inv).1.map
        (fun t => (t.idx, t.price, t.decline))
      = specTrailing trailing data i peak)
    ∧ (∀ t ∈ (trailingGo amount trailing data i peak sh inv).1,
        0 < t.price ∧ trailing ≤ t.decline) := by
  induction data generalizing i peak sh inv with
  | nil => simp [trailingGo, specTrailing]
  | cons q rest ih =>
    rcases q with ⟨d, p⟩
    simp only [trailingGo, specTrailing]
    by_cases hp : p ≤ 0
    · rw [if_pos hp, if_neg (not_lt.mpr hp)]
      exact ih (i + 1) peak sh inv hpos
    · push_neg at hp
      rw [if_neg (not_le.mpr hp), if_pos hp, if_pos hpos]
      by_cases hdec : trailing ≤ (peak - p) / peak * 100
      · rw [if_pos hdec, if_pos hdec, max_self p]
        have ihp := ih (i + 1) p (sh + amount / p) (inv + amount) hp
        constructor
        · simp only [List.map_cons, ihp.1]
        · intro t ht
          rcases List.mem_cons.mp ht with rfl | ht
          · exact ⟨hp, hdec⟩
          · exact ihp.2 t ht
      · rw [if_neg hdec, if_neg hdec]
        exact ih (i + 1) (max peak p) sh inv (lt_of_lt_of_le hpos (le_max_left _ _))

/-- C2: with a positive initial peak (guaranteed by the initialization check),
the trailing-buy loop records a purchase at a positive-price point exactly as
the claim describes: the tracked peak is the running maximum of positive
prices seen since the last purchase (reset to the purchase price at each
purchase, per `specTrailing`, written from the claim's words), and a purchase
is recorded if and only if `(peak - price)/peak*100` reaches the threshold;
every recorded purchase therefore declines by at least the threshold from the
post-purchase reset peak. -/
theorem claim_c2_trailing_purchase_rule (amount trailing h0 : ℚ)
    (data : List (Nat × ℚ)) (hpos : 0 < h0) :
    ((trailingGo amount trailing data 0 h0 0 0).1.map
        (fun t => (t.idx, t.price, t.decline))
      = specTrailing trailing data 0 h0)
    ∧ (∀ t ∈ (trailingGo amount trailing data 0 h0 0 0).1,
        0 < t.price ∧ trailing ≤ t.decline) :=
  trailingGo_spec_aux amount trailing data 0 h0 0 0 hpos

/-- Witness for `claim_c2_trailing_purchase_rule` at a concrete two-point run
with a ten-percent decline. -/
theorem claim_c2_trailing_purchase_rule_witness :
    (0 : ℚ) < 100
    ∧ (((trailingGo 10 5 [((0 : Nat), (100 : ℚ)), (1, 90)] 0 100 0 0).1.map
          (fun t => (t.idx, t.price, t.decline))
        = specTrailing 5 [((0 : Nat), (100 : ℚ)), (1, 90)] 0 100)
      ∧ (∀ t ∈ (trailingGo 10 5 [((0 : Nat), (100 : ℚ)), (1, 90)] 0 100 0 0).1,
          (5 : ℚ) ≤ t.decline)) :=
  ⟨by norm_num,
   (claim_c2_trailing_purchase_rule 10 5 100 [(0, 100), (1, 90)] (by norm_num)).1,
   fun t ht =>
     ((claim_c2_trailing_purchase_rule 10 5 100 [(0, 100), (1, 90)] (by norm_num)).2
       t ht).2⟩

/-- The trailing-related summary fields of the assembled payload, spelled
out (definitional). -/
theorem assemble_trailing_fields (cal : Frequency → Nat → Nat → List Nat)
    (bl : Frequency → Nat → Nat) (monthsBack : Nat → Nat → Nat)
    (hist_data hist_data_full : List Row) (investment_amount : ℚ)
    (frequency : Frequency) (timeline_months : Nat) (trailing_percentage : ℚ)
    (dd : Nat × ℚ) (drest : List (Nat × ℚ)) :
    (assemblePayload cal bl monthsBack hist_data hist_data_full investment_amount
        frequency timeline_months trailing_percentage dd drest).summary.trailingValue
      = round2 (if 0 < (trailingGo investment_amount trailing_percentage
            (dd :: drest) 0 dd.2 0 0).2.1
          then (trailingGo investment_amount trailing_percentage
            (dd :: drest) 0 dd.2 0 0).2.1 * ((dd :: drest).getLastD dd).2
          else 0)
    ∧ (assemblePayload cal bl monthsBack hist_data hist_data_full investment_amount
        frequency timeline_months trailing_percentage dd drest).summary.trailingPctIncrease
      = (if 0 < ((trailingGo investment_amount trailing_percentage
            (dd :: drest) 0 dd.2 0 0).1.length : ℚ) * investment_amount
         then round2 (((if 0 < (trailingGo investment_amount trailing_percentage
              (dd :: drest) 0 dd.2 0 0).2.1
            then (trailingGo investment_amount trailing_percentage
              (dd :: drest) 0 dd.2 0 0).2.1 * ((dd :: drest).getLastD dd).2
            else 0)
            - ((trailingGo investment_amount trailing_percentage
              (dd :: drest) 0 dd.2 0 0).1.length : ℚ) * investment_amount)
            / (((trailingGo investment_amount trailing_percentage
              (dd :: drest) 0 dd.2 0 0).1.length : ℚ) * investment_amount) * 100)
         else 0)
    ∧ (assemblePayload cal bl monthsBack hist_data hist_data_full investment_amount
        frequency timeline_months trailing_percentage dd drest).summary.trailingDollarIncrease
      = round2 ((if 0 < (trailingGo investment_amount trailing_percentage
            (dd :: drest) 0 dd.2 0 0).2.1
          then (trailingGo investment_amount trailing_percentage
            (dd :: drest) 0 dd.2 0 0).2.1 * ((dd :: drest).getLastD dd).2
          else 0)
          - ((trailingGo investment_amount trailing_percentage
            (dd :: drest) 0 dd.2 0 0).1.length : ℚ) * investment_amount) :=
  ⟨rfl, rfl, rfl⟩

theorem round2_zero : round2 0 = 0 := by
  rw [round2]
  norm_num
/-- C10: if an input passes validation and its boundary checks, DCA records at
least one purchase, and Trailing-Buy records none, then `calculate_strategies`
still returns a complete payload (it does not raise), whose summary has
`trailing_value = 0`, `trailing_percentage_increase = 0` and
`trailing_dollar_increase = 0`. -/
theorem claim_c10_zero_trailing_payload (cal : Frequency → Nat → Nat → List Nat)
    (bl : Frequency → Nat → Nat) (monthsBack : Nat → Nat → Nat)
    (hist_data hist_data_full : List Row) (investment_amount : ℚ)
    (frequency : Frequency) (timeline_months : Nat) (trailing_percentage : ℚ)
    (d0 : List (Nat × Option ℚ)) (dd : Nat × ℚ) (drest : List (Nat × ℚ))
    (h1 : hist_data ≠ []) (h1b : hist_data_full ≠ [])
    (h2 : 0 < investment_amount) (h3 : timeline_months ≠ 0)
    (h4a : 0 < trailing_percentage) (h4b : trailing_percentage < 100)
    (h5 : timelineFiltered monthsBack hist_data hist_data_full timeline_months ≠ [])
    (hR : resample_step (bl frequency) (hist_data.map (fun r => (r.date, r.closePx)))
      = .ok d0)
    (h6 : resolvedDatesCount cal frequency hist_data ≠ 0)
    (hD : denan d0 = dd :: drest)
    (h7 : 0 < dd.2) (h8 : 0 < ((dd :: drest).getLastD dd).2)
    (hdca : (dcaGo investment_amount (dd :: drest)
      (scheduleOf cal frequency
        (timelineFiltered monthsBack hist_data hist_data_full timeline_months)) 0 0).1 ≠ [])
    (htr : (trailingGo investment_amount trailing_percentage
      (dd :: drest) 0 dd.2 0 0).1 = []) :
    ∃ p, calculate_strategies cal bl monthsBack hist_data hist_data_full
        investment_amount frequency timeline_months trailing_percentage = .ok p
      ∧ p.summary.trailingValue = 0
      ∧ p.summary.trailingPctIncrease = 0
      ∧ p.summary.trailingDollarIncrease = 0 := by
  have h9 : 0 < (dcaGo investment_amount (dd :: drest)
      (scheduleOf cal frequency
        (timelineFiltered monthsBack hist_data hist_data_full timeline_months)) 0 0).2.1 :=
    (dcaGo_pos_stats _ _ _ _ _ h2 hdca).1
  have hstats := trailingGo_nil_stats investment_amount trailing_percentage
    (dd :: drest) 0 dd.2 0 0 htr
  have hfields := assemble_trailing_fields cal bl monthsBack hist_data hist_data_full
    investment_amount frequency timeline_months trailing_percentage dd drest
  refine ⟨_, calc_ok_intro h1 h1b h2 h3 h4a h4b h5 hR h6 hD h7 h8 h9, ?_, ?_, ?_⟩
  · rw [hfields.1, hstats.1, if_neg (lt_irrefl 0), round2_zero]
  · rw [hfields.2.1, htr]
    norm_num
  · rw [hfields.2.2, hstats.1, htr, if_neg (lt_irrefl 0)]
    norm_num [round2_zero]

/-- Witness for `claim_c10_zero_trailing_payload`: the shared witness run has
two DCA purchases and no trailing purchases. -/
theorem claim_c10_zero_trailing_payload_witness :
    ((trailingGo 1 5 [((0 : Nat), (1 : ℚ)), (1, 1)] 0 1 0 0).1 = [])
    ∧ ∃ p, calculate_strategies wCal wBl wMB wRaw wRaw 1 .Daily 12 5 = .ok p
        ∧ p.summary.trailingValue = 0
        ∧ p.summary.trailingPctIncrease = 0
        ∧ p.summary.trailingDollarIncrease = 0 :=
  ⟨by rw [wTrailing],
   claim_c10_zero_trailing_payload wCal wBl wMB wRaw wRaw 1 .Daily 12 5
     [(0, some 1), (1, some 1)] (0, 1) [(1, 1)]
     (by simp [wRaw]) (by simp [wRaw]) (by norm_num) (by norm_num) (by norm_num)
     (by norm_num) (by rw [wFiltered]; simp [wRaw]) wResample (by decide)
     (by simp [denan]) (by norm_num) (by norm_num [List.getLastD])
     (by rw [wFiltered, wSchedule, wDca]; simp)
     (by rw [wTrailing])⟩

/-- The DCA value curve adds the ledger entries positionally: its `i`-th value
is the running total after the first `i + 1` ledger entries (or all of them),
marked at the `i`-th price. -/
theorem dcaCumulative_go_getElem? (data : List (Nat × ℚ)) (purs : List DPur)
    (sh : ℚ) (i : Nat) :
    (dcaCumulative.go data purs sh)[i]?
      = (data[i]?).map
          (fun pt => ((purs.take (i + 1)).foldl (fun s q => s + q.shares) sh) * pt.2) := by
  induction data generalizing purs sh i with
  | nil => simp [dcaCumulative.go]
  | cons pt rest ih =>
    cases purs with
    | nil =>
      cases i with
      | zero => simp [dcaCumulative.go]
      | succ n => simpa [dcaCumulative.go] using ih [] sh n
    | cons q qs =>
      cases i with
      | zero => simp [dcaCumulative.go]
      | succ n => simpa [dcaCumulative.go] using ih qs (sh + q.shares) n
/-- C3 amended: the date-based formula of the claim holds for the Trailing-Buy
curve at every point, and for the Lump-Sum curve (whose single conceptual
purchase carries the first point's date) at every point of a date-sorted
series; the DCA curve instead equals the positional formula — the sum of the
shares of the first `min(i+1, number of purchases)` ledger entries times the
`i`-th price — which agrees with the date-based formula only when the `k`-th
purchase falls on the `k`-th series point. -/
theorem claim_c3_amended :
    (∀ (data : List (Nat × ℚ)) (tpurs : List TPur) (i : Nat),
      (trailingCumulative data tpurs)[i]?
        = (data[i]?).map (fun pt =>
            ((tpurs.filter (fun t => t.date ≤ pt.1)).foldl
              (fun s t => s + t.shares) 0) * pt.2))
    ∧ (∀ (dd : Nat × ℚ) (drest : List (Nat × ℚ)) (totalInv : ℚ) (i : Nat),
        List.Chain' (fun a b => a.1 ≤ b.1) (dd :: drest) →
        ((dd :: drest).map (fun p => totalInv / dd.2 * p.2))[i]?
          = ((dd :: drest)[i]?).map
              (fun pt => (if dd.1 ≤ pt.1 then totalInv / dd.2 else 0) * pt.2))
    ∧ (∀ (data : List (Nat × ℚ)) (purs : List DPur) (i : Nat),
        (dcaCumulative data purs)[i]?
          = (data[i]?).map
              (fun pt => ((purs.take (i + 1)).foldl (fun s q => s + q.shares) 0) * pt.2)) := by
  refine ⟨?_, ?_, ?_⟩
  · intro data tpurs i
    simp [trailingCumulative, List.getElem?_map]
  · intro dd drest totalInv i hchain
    rw [List.getElem?_map]
    cases hi : (dd :: drest)[i]? with
    | none => rfl
    | some pt =>
      have hmem : pt ∈ dd :: drest := by
        have := List.getElem?_eq_some.mp hi
        obtain ⟨hlt, hget⟩ := this
        exact hget ▸ List.getElem_mem _
      have hle : dd.1 ≤ pt.1 := by
        rcases List.mem_cons.mp hmem with rfl | hmem
        · exact le_refl _
        · have htrans : IsTrans (Nat × ℚ) (fun a b => a.1 ≤ b.1) :=
            ⟨fun _ _ _ hab hbc => le_trans hab hbc⟩
          have hrel := (@List.chain'_iff_pairwise _ _ htrans _).mp hchain
          exact (List.pairwise_cons.mp hrel).1 pt hmem
      simp [hle]
  · intro data purs i
    exact dcaCumulative_go_getElem? data purs 0 i
/-- C3 counterexample input: two business-day rows with a business-day gap
(date 1 is a business day absent from the data, so the resampled series has a
forward-filled row the trading schedule skips). -/
def c3Raw : List Row := [⟨0, 1, 1⟩, ⟨2, 1, 1⟩]

def c3Data : List (Nat × ℚ) := [(0, 1), (1, 1), (2, 1)]

def c3Payload : Payload :=
  assemblePayload wCal wBl wMB c3Raw c3Raw 1 .Daily 12 5 (0, 1) [(1, 1), (2, 1)]

theorem c3Filtered : timelineFiltered wMB c3Raw c3Raw 12 = c3Raw := by
  simp [timelineFiltered, wMB, c3Raw]

theorem c3Schedule : scheduleOf wCal .Daily c3Raw = [0, 2] := by
  simp [scheduleOf, wCal, c3Raw, bdays, isBDay, rangeList, dRow, List.filter]

theorem c3Resample :
    resample_step (wBl .Daily) (c3Raw.map (fun r => (r.date, r.closePx)))
      = .ok [(0, some 1), (1, some 1), (2, some 1)] := by
  simp [resample_step, resample_whole, resampleLast, wBl, c3Raw, dailyLabel, labelRange,
    rangeList, lastIn, fillIfNa, hasNone, ffill, ffillGo, bfill, dedupKeepFirst, List.filter]

theorem c3Dca : dcaGo 1 c3Data [0, 2] 0 0
    = ([⟨0, 1, 1, 1, 1, 1⟩, ⟨2, 1, 1, 1, 2, 2⟩], 2, 2) := by
  norm_num [dcaGo, c3Data, lookupPrice, List.find?_cons_of_pos, List.find?_cons_of_neg,
    List.find?_singleton]

theorem c3Run : calculate_strategies wCal wBl wMB c3Raw c3Raw 1 .Daily 12 5
    = .ok c3Payload := by
  have hD : denan [((0 : Nat), some (1 : ℚ)), (1, some 1), (2, some 1)]
      = (0, 1) :: [(1, 1), (2, 1)] := by
    simp [denan]
  exact calc_ok_intro
    (by simp [c3Raw]) (by simp [c3Raw]) (by norm_num) (by norm_num) (by norm_num)
    (by norm_num) (by rw [c3Filtered]; simp [c3Raw]) c3Resample (by decide)
    hD (by norm_num) (by norm_num [List.getLastD])
    (by rw [c3Filtered, c3Schedule]
        have : (((0 : Nat), (1 : ℚ)) :: [((1 : Nat), (1 : ℚ)), (2, 1)]) = c3Data := by
          simp [c3Data]
        rw [this, c3Dca]
        norm_num)

/-- C3 counterexample: in the `c3Raw` run the normalized series is
`[(0,1),(1,1),(2,1)]` and DCA purchases fall on dates 0 and 2, yet the DCA
value curve at index 1 (date 1, price 1) is `2` — the second purchase is added
one point early — while the claim's date-based formula gives `1`. -/
theorem claim_c3_counterexample :
    calculate_strategies wCal wBl wMB c3Raw c3Raw 1 .Daily 12 5 = .ok c3Payload
    ∧ c3Payload.performance.dates[1]? = some 1
    ∧ c3Payload.performance.dca[1]? = some 2
    ∧ ((c3Payload.dcaTransactions.filter (fun t => t.date ≤ 1)).foldl
        (fun s t => s + t.shares) 0) * (1 : ℚ) = 1
    ∧ (2 : ℚ) ≠ 1 := by
  have hledger : c3Payload.dcaTransactions
      = [⟨0, 1, 1, 1, 1, 1⟩, ⟨2, 1, 1, 1, 2, 2⟩] := by
    show (dcaGo 1 ((0, 1) :: [(1, 1), (2, 1)])
      (scheduleOf wCal .Daily (timelineFiltered wMB c3Raw c3Raw 12)) 0 0).1 = _
    rw [c3Filtered, c3Schedule]
    have : (((0 : Nat), (1 : ℚ)) :: [((1 : Nat), (1 : ℚ)), (2, 1)]) = c3Data := by
      simp [c3Data]
    rw [this, c3Dca]
  refine ⟨c3Run, by rfl, ?_, ?_, by norm_num⟩
  · have hcurve : c3Payload.performance.dca
        = dcaCumulative c3Data [⟨0, 1, 1, 1, 1, 1⟩, ⟨2, 1, 1, 1, 2, 2⟩] := by
      show dcaCumulative ((0, 1) :: [(1, 1), (2, 1)])
        (dcaGo 1 ((0, 1) :: [(1, 1), (2, 1)])
          (scheduleOf wCal .Daily (timelineFiltered wMB c3Raw c3Raw 12)) 0 0).1 = _
      rw [c3Filtered, c3Schedule]
      have : (((0 : Nat), (1 : ℚ)) :: [((1 : Nat), (1 : ℚ)), (2, 1)]) = c3Data := by
        simp [c3Data]
      rw [this, c3Dca]
    rw [hcurve]
    norm_num [dcaCumulative, dcaCumulative.go, c3Data]
  · rw [hledger]
    norm_num [List.filter, List.foldl]

/-- Witness for `claim_c3_amended` on a concrete sorted two-point series. -/
theorem claim_c3_amended_witness :
    List.Chain' (fun a b : Nat × ℚ => a.1 ≤ b.1) [(0, 2), (1, 3)]
    ∧ (([((0 : Nat), (2 : ℚ)), (1, 3)].map (fun p => (6 : ℚ) / 2 * p.2))[1]?
        = (([((0 : Nat), (2 : ℚ)), (1, 3)])[1]?).map
            (fun pt => (if 0 ≤ pt.1 then (6 : ℚ) / 2 else 0) * pt.2)) :=
  ⟨by simp,
   claim_c3_amended.2.1 (0, 2) [(1, 3)] 6 1 (by simp)⟩

/-- Inversion of a successful `calculate_simple_returns`: the window is
nonempty, both boundary closes are positive, and the returns are the
buy-and-hold percentage change with the 1.10x / 1.05x multipliers. -/
theorem simple_returns_inv {closes : List ℚ} {r : StratReturns}
    (h : calculate_simple_returns closes = some r) :
    ∃ c cs, closes = c :: cs ∧ 0 < c ∧ 0 < (c :: cs).getLastD c ∧
      r = ⟨((c :: cs).getLastD c - c) / c * 100 * 1.1,
           ((c :: cs).getLastD c - c) / c * 100 * 1.05,
           ((c :: cs).getLastD c - c) / c * 100⟩ := by
  cases closes with
  | nil => simp [calculate_simple_returns] at h
  | cons c cs =>
    simp only [calculate_simple_returns] at h
    split at h
    · exact absurd h (by simp)
    · next hg =>
      push_neg at hg
      exact ⟨c, cs, rfl, hg.1, hg.2, (Option.some.inj h).symm⟩

/-- A named horizon present in the rolling-returns result was included
(`H ≤ data_length_months`) and carries exactly its `horizon_entry` value. -/
theorem rolling_mem_named {bl : Nat → Nat} {monthsBack : Nat → Nat → Nat}
    {hist : List (Nat × ℚ)} {lab : RollLabel} {H : Nat} {r : StratReturns}
    (hmem : (lab, H) ∈ allPeriods)
    (hr : (lab, r) ∈ calculate_rolling_returns bl monthsBack hist) :
    hist ≠ [] ∧ H ≤ dataLengthMonths hist ∧ horizon_entry bl monthsBack hist H = some r := by
  have hne : lab ≠ RollLabel.allTime := by
    have hall : ∀ pr ∈ allPeriods, pr.1 ≠ RollLabel.allTime := by decide
    exact hall (lab, H) hmem
  cases hist with
  | nil => simp [calculate_rolling_returns] at hr
  | cons h t =>
    refine ⟨by simp, ?_⟩
    simp only [calculate_rolling_returns] at hr
    rcases List.mem_append.mp hr with hr | hr
    · obtain ⟨pr, hpr, heq⟩ := List.mem_filterMap.mp hr
      obtain ⟨v, hv, heq2⟩ := Option.map_eq_some'.mp heq
      obtain ⟨hprmem, hprle⟩ := List.mem_filter.mp hpr
      have hlab : pr.1 = lab := congrArg Prod.fst heq2
      have hval : v = r := congrArg Prod.snd heq2
      have hH : pr.2 = H := by
        have huniq : ∀ pr1 ∈ allPeriods, ∀ pr2 ∈ allPeriods,
            pr1.1 = pr2.1 → pr1.2 = pr2.2 := by decide
        exact huniq pr hprmem (lab, H) hmem (by simpa using hlab)
      constructor
      · exact hH ▸ (by simpa using hprle)
      · rw [← hH, ← hval]
        exact hv
    · exfalso
      rcases ho : calculate_simple_returns ((h :: t).map (·.2)) with _ | rv
      · rw [ho] at hr; simp at hr
      · rw [ho] at hr
        simp at hr
        exact hne hr.1
/-- C4: for every named horizon included in the rolling-returns result — for
any calendar, any bucket-label map and any price series — a horizon longer
than 150 months carries the simplified estimator (buy-and-hold = first-to-last
percentage change over the window, Buy-the-Dip = 1.10x, DCA = 1.05x that), and
a horizon of at most 150 months resamples the window at the requested
frequency and (whenever the resampled series' mean is nonzero, so that the
`ZeroDivisionError` fallback is not taken) carries DCA =
`(final/mean - 1) * 100`, Buy-the-Dip = DCA x 1.10 and Buy-and-Hold = the
first-to-last percentage change of the resampled series. -/
theorem claim_c4_rolling_formulas (bl : Nat → Nat) (monthsBack : Nat → Nat → Nat)
    (hist : List (Nat × ℚ)) (lab : RollLabel) (H : Nat) (r : StratReturns)
    (hmem : (lab, H) ∈ allPeriods)
    (hr : (lab, r) ∈ calculate_rolling_returns bl monthsBack hist) :
    (halfMaxLookback < H →
      ∃ c cs, (windowOf monthsBack hist H).map (·.2) = c :: cs ∧
        0 < c ∧ 0 < (c :: cs).getLastD c ∧
        r.hold = ((c :: cs).getLastD c - c) / c * 100 ∧
        r.dip = r.hold * 1.1 ∧ r.dca = r.hold * 1.05)
    ∧ (H ≤ halfMaxLookback →
        ∃ v vs,
          (ffill (resampleLast bl (windowOf monthsBack hist H))).filterMap (·.2)
            = v :: vs ∧
          (meanOf (v :: vs) ≠ 0 →
            r.dca = ((v :: vs).getLastD v / meanOf (v :: vs) - 1) * 100 ∧
            r.dip = r.dca * 1.1 ∧
            r.hold = ((v :: vs).getLastD v - v) / v * 100)) := by
  obtain ⟨hne, hdlm, hent⟩ := rolling_mem_named hmem hr
  obtain ⟨h0, t0, rfl⟩ := List.exists_cons_of_ne_nil hne
  constructor
  · intro hgt
    simp only [horizon_entry] at hent
    rw [if_pos hgt] at hent
    obtain ⟨c, cs, hcs, hc, hlast, hr'⟩ := simple_returns_inv hent
    subst hr'
    exact ⟨c, cs, hcs, hc, hlast, rfl, rfl, rfl⟩
  · intro hle
    simp only [horizon_entry] at hent
    rw [if_neg (not_lt.mpr hle)] at hent
    split at hent
    · exact absurd hent (by simp)
    · split at hent
      next heq => exact absurd hent (by simp)
      next v vs heq =>
        split at hent
        · exact absurd hent (by simp)
        · split at hent
          next hmean0 =>
            exact ⟨v, vs, heq, fun hmean => absurd hmean0 hmean⟩
          next hmean0 =>
            refine ⟨v, vs, heq, fun _ => ?_⟩
            have hr' := (Option.some.inj hent).symm
            subst hr'
            exact ⟨rfl, rfl, rfl⟩
/-- Concrete inputs for the rolling-returns witnesses: a 400-day two-point
history, with the calendar-month offset modelled as 30 days per month. -/
def c4MB : Nat → Nat → Nat := fun e m => e - 30 * m
def c4Hist : List (Nat × ℚ) := [(0, 1), (400, 2)]
theorem c4Eval : calculate_rolling_returns dailyLabel c4MB c4Hist
    = [(.y1, ⟨0, 0, 0⟩), (.allTime, ⟨110, 105, 100⟩)] := by
  norm_num [calculate_rolling_returns, c4MB, c4Hist, dataLengthMonths, allPeriods,
    horizon_entry, windowOf, meanOf, halfMaxLookback, calculate_simple_returns,
    resampleLast, dailyLabel, labelRange, rangeList, lastIn, ffill, ffillGo,
    List.filter, List.filterMap, denan]
/-- C5 amended: a named rolling horizon of `H` months appears in the result
only if `H ≤ data_length_months` (elapsed days between first and last dates,
integer-divided by 30); the "All-Time" horizon is present if and only if the
input series is non-empty and its first and last closes are positive.  (The
claim asserted "All-Time" for every non-empty series; that fails when a
boundary close is nonpositive — see the counterexample.) -/
theorem claim_c5_amended (bl : Nat → Nat) (monthsBack : Nat → Nat → Nat)
    (hist : List (Nat × ℚ)) :
    (∀ lab H r, (lab, H) ∈ allPeriods →
      (lab, r) ∈ calculate_rolling_returns bl monthsBack hist →
      H ≤ dataLengthMonths hist)
    ∧ ((∃ r, (RollLabel.allTime, r) ∈ calculate_rolling_returns bl monthsBack hist)
        ↔ ∃ c cs, hist.map (·.2) = c :: cs ∧ 0 < c ∧ 0 < (c :: cs).getLastD c) := by
  constructor
  · intro lab H r hmem hr
    exact (rolling_mem_named hmem hr).2.1
  · constructor
    · rintro ⟨r, hr⟩
      cases hist with
      | nil => simp [calculate_rolling_returns] at hr
      | cons h t =>
        simp only [calculate_rolling_returns] at hr
        rcases List.mem_append.mp hr with hr | hr
        · exfalso
          obtain ⟨pr, hpr, heq⟩ := List.mem_filterMap.mp hr
          obtain ⟨v, hv, heq2⟩ := Option.map_eq_some'.mp heq
          have hlab : pr.1 = RollLabel.allTime := congrArg Prod.fst heq2
          have hno : ∀ pr ∈ allPeriods, pr.1 ≠ RollLabel.allTime := by decide
          exact hno pr (List.mem_filter.mp hpr).1 hlab
        · rcases ho : calculate_simple_returns ((h :: t).map (·.2)) with _ | rv
          · rw [ho] at hr; simp at hr
          · obtain ⟨c, cs, hcs, hc, hlast, _⟩ := simple_returns_inv ho
            exact ⟨c, cs, hcs, hc, hlast⟩
    · rintro ⟨c, cs, hcs, hc, hlast⟩
      cases hist with
      | nil => simp at hcs
      | cons h t =>
        have hval : calculate_simple_returns ((h :: t).map (·.2))
            = some ⟨((c :: cs).getLastD c - c) / c * 100 * 1.1,
                ((c :: cs).getLastD c - c) / c * 100 * 1.05,
                ((c :: cs).getLastD c - c) / c * 100⟩ := by
          rw [hcs]
          simp only [calculate_simple_returns]
          rw [if_neg (by push_neg; exact ⟨hc, hlast⟩)]
        refine ⟨⟨((c :: cs).getLastD c - c) / c * 100 * 1.1,
          ((c :: cs).getLastD c - c) / c * 100 * 1.05,
          ((c :: cs).getLastD c - c) / c * 100⟩, ?_⟩
        simp only [calculate_rolling_returns]
        apply List.mem_append.mpr
        right
        rw [hval]
        simp
/-- C5 counterexample: a non-empty one-point series whose close is negative
produces an empty rolling-returns table — the "All-Time" horizon is absent
although the input series is non-empty, because `calculate_simple_returns`
returns `None` for a nonpositive boundary price. -/
theorem claim_c5_counterexample :
    ([((0 : Nat), (-1 : ℚ))] ≠ ([] : List (Nat × ℚ)))
    ∧ calculate_rolling_returns dailyLabel (fun _ _ => 0) [(0, -1)] = [] := by
  refine ⟨by simp, ?_⟩
  norm_num [calculate_rolling_returns, dataLengthMonths, allPeriods,
    calculate_simple_returns]
/-- Witness for `claim_c5_amended`: the "All-Time" horizon is present for a
two-point positive-price history. -/
theorem claim_c5_amended_witness :
    (c4Hist.map (·.2) = 1 :: [2] ∧ (0 : ℚ) < 1 ∧ (0 : ℚ) < ((1 : ℚ) :: [2]).getLastD 1)
    ∧ ∃ r, (RollLabel.allTime, r) ∈ calculate_rolling_returns dailyLabel c4MB c4Hist :=
  ⟨⟨by norm_num [c4Hist], by norm_num, by norm_num⟩,
   (claim_c5_amended dailyLabel c4MB c4Hist).2.mpr
     ⟨1, [2], by norm_num [c4Hist], by norm_num, by norm_num⟩⟩
/-- Witness for `claim_c4_rolling_formulas` at the concrete rolling run: the
1-year horizon takes the short resampled path with mean 2. -/
theorem claim_c4_rolling_formulas_witness :
    ((RollLabel.y1, 12) ∈ allPeriods)
    ∧ ((RollLabel.y1, (⟨0, 0, 0⟩ : StratReturns))
        ∈ calculate_rolling_returns dailyLabel c4MB c4Hist)
    ∧ (12 ≤ halfMaxLookback)
    ∧ (∃ v vs,
        (ffill (resampleLast dailyLabel (windowOf c4MB c4Hist 12))).filterMap (·.2)
          = v :: vs ∧
        (meanOf (v :: vs) ≠ 0 →
          (⟨0, 0, 0⟩ : StratReturns).dca
              = ((v :: vs).getLastD v / meanOf (v :: vs) - 1) * 100 ∧
            (⟨0, 0, 0⟩ : StratReturns).dip = (⟨0, 0, 0⟩ : StratReturns).dca * 1.1 ∧
            (⟨0, 0, 0⟩ : StratReturns).hold
              = ((v :: vs).getLastD v - v) / v * 100)) :=
  ⟨by decide, by rw [c4Eval]; simp, by norm_num [halfMaxLookback],
   (claim_c4_rolling_formulas dailyLabel c4MB c4Hist .y1 12 ⟨0, 0, 0⟩ (by decide)
     (by rw [c4Eval]; simp)).2 (by norm_num [halfMaxLookback])⟩
/-! ## Idempotence of the normalize step -/

theorem getLastD_cons_eq {α : Type} (a : α) (l : List α) (d₁ d₂ : α) :
    (a :: l).getLastD d₁ = (a :: l).getLastD d₂ := by
  rw [List.getLastD_eq_getLast?, List.getLastD_eq_getLast?,
    List.getLast?_eq_getLast _ (List.cons_ne_nil a l)]
  simp

theorem getLastD_mem {α : Type} (a : α) (l : List α) (d : α) :
    (a :: l).getLastD d ∈ a :: l := by
  rw [List.getLastD_eq_getLast?, List.getLast?_eq_getLast _ (List.cons_ne_nil a l)]
  simp [List.getLast_mem]

theorem chain'_fst_le_getLastD (r : Nat × ℚ) (rs : List (Nat × ℚ))
    (h : List.Chain' (fun p q : Nat × ℚ => p.1 ≤ q.1) (r :: rs)) :
    r.1 ≤ ((r :: rs).getLastD r).1 := by
  induction rs generalizing r with
  | nil => simp
  | cons q qs ih =>
    have h1 : r.1 ≤ q.1 := (List.chain'_cons.mp h).1
    have h2 := ih q (List.chain'_cons.mp h).2
    rw [List.getLastD_cons, getLastD_cons_eq q qs r q]
    exact le_trans h1 h2

theorem rangeList_cons (s e : Nat) (h : s ≤ e) :
    rangeList s e = s :: rangeList (s + 1) e := by
  unfold rangeList
  have h1 : e + 1 - s = (e - s) + 1 := by omega
  have h2 : e + 1 - (s + 1) = e - s := by omega
  rw [h1, h2, List.range_succ_eq_map]
  simp only [List.map_cons, List.map_map, Nat.add_zero]
  congr 1
  apply List.map_congr_left
  intro a _
  simp only [Function.comp_apply]
  omega

theorem rangeList_split (s m e : Nat) (h1 : s ≤ m + 1) (h2 : m ≤ e) :
    rangeList s e = rangeList s m ++ rangeList (m + 1) e := by
  unfold rangeList
  have hsum : e + 1 - s = (m + 1 - s) + (e - m) := by omega
  have h3 : e + 1 - (m + 1) = e - m := by omega
  rw [hsum, h3, List.range_add, List.map_append, List.map_map]
  congr 1
  apply List.map_congr_left
  intro a _
  simp only [Function.comp_apply]
  omega

theorem pairwise_mem_le_getLastD (L : List Nat) (hL : L.Pairwise (· < ·))
    (d : Nat) (hd : d ∈ L) : d ≤ L.getLastD 0 := by
  induction L with
  | nil => simp at hd
  | cons a t ih =>
    rcases List.mem_cons.mp hd with rfl | hd
    · cases t with
      | nil => simp
      | cons b u =>
        rw [List.getLastD_cons]
        exact le_of_lt ((List.pairwise_cons.mp hL).1 _ (getLastD_mem b u d))
    · have hne : t ≠ [] := fun hh => by subst hh; simp at hd
      obtain ⟨b, u, rfl⟩ := List.exists_cons_of_ne_nil hne
      rw [List.getLastD_cons, getLastD_cons_eq b u a 0]
      exact ih (List.pairwise_cons.mp hL).2 hd
theorem labelRange_cons (b : Nat → Nat) (s e : Nat) (hfix : b s = s) (hse : s ≤ e) :
    labelRange b s e = s :: (rangeList (s + 1) e).filter (fun d => b d == d) := by
  rw [labelRange, rangeList_cons s e hse, List.filter_cons]
  simp [hfix]

theorem labelRange_shrink (b : Nat → Nat) (s e : Nat) (hfix : b s = s) (hse : s ≤ e) :
    labelRange b s ((labelRange b s e).getLastD 0) = labelRange b s e := by
  set L := labelRange b s e with hL
  have hsmem : s ∈ L := mem_labelRange.mpr ⟨hfix, le_refl s, hse⟩
  set x := L.getLastD 0 with hx
  have hxmem : x ∈ L := by
    obtain ⟨a, t, hcons⟩ := List.exists_cons_of_ne_nil (List.ne_nil_of_mem hsmem)
    rw [hx, hcons]
    exact hcons ▸ getLastD_mem a t 0
  obtain ⟨hxfix, hsx, hxe⟩ := mem_labelRange.mp hxmem
  have hsplit : labelRange b s e = labelRange b s x ++ labelRange b (x + 1) e := by
    rw [labelRange, rangeList_split s x e (by omega) hxe, List.filter_append]
    rfl
  have hnil : labelRange b (x + 1) e = [] := by
    rw [labelRange, List.filter_eq_nil_iff]
    intro d hd
    simp only [beq_iff_eq]
    intro hdfix
    have hdmem : d ∈ L := by
      rw [hL]
      exact mem_labelRange.mpr ⟨hdfix, le_trans hsx (le_trans (Nat.le_succ x)
        (mem_rangeList.mp hd).1), (mem_rangeList.mp hd).2⟩
    have := pairwise_mem_le_getLastD L (labelRange_pairwise_lt b s e) d hdmem
    have hge := (mem_rangeList.mp hd).1
    omega
  rw [← hL] at hsplit
  rw [hsplit, hnil, List.append_nil]

theorem hasNone_false_all_isSome {l : List (Nat × Option ℚ)} (h : hasNone l = false) :
    ∀ p ∈ l, p.2.isSome := by
  intro p hp
  rw [hasNone, List.any_eq_false] at h
  have := h p hp
  cases hv : p.2 with
  | none => rw [hv] at this; simp at this
  | some v => rfl

theorem denan_wrap {l : List (Nat × Option ℚ)} (h : ∀ p ∈ l, p.2.isSome) :
    (denan l).map (fun p => (p.1, some p.2)) = l := by
  induction l with
  | nil => rfl
  | cons p rest ih =>
    rcases p with ⟨d, v⟩
    cases v with
    | none => exact absurd (h (d, none) (List.mem_cons_self _ _)) (by simp)
    | some w =>
      simp only [denan, List.filterMap_cons]
      simp only [Option.map_some']
      rw [List.map_cons]
      exact congrArg _ (by
        have := ih (fun q hq => h q (List.mem_cons_of_mem _ hq))
        simpa [denan] using this)

theorem filter_key_eq_singleton {M : List (Nat × ℚ)} (hnd : (M.map Prod.fst).Nodup)
    {p : Nat × ℚ} (hp : p ∈ M) : M.filter (fun q => q.1 == p.1) = [p] := by
  induction M with
  | nil => simp at hp
  | cons a t ih =>
    simp only [List.map_cons, List.nodup_cons] at hnd
    rcases List.mem_cons.mp hp with rfl | hp
    · rw [List.filter_cons]
      simp only [beq_self_eq_true, if_pos]
      congr 1
      rw [List.filter_eq_nil_iff]
      intro q hq
      simp only [beq_iff_eq]
      intro hqeq
      exact hnd.1 (hqeq ▸ List.mem_map_of_mem Prod.fst hq)
    · rw [List.filter_cons]
      have hne : (a.1 == p.1) = false := by
        simp only [beq_eq_false_iff_ne, ne_eq]
        intro heq
        exact hnd.1 (heq ▸ List.mem_map_of_mem Prod.fst hp)
      rw [hne]
      simp only [Bool.false_eq_true, if_false]
      exact ih hnd.2 hp
theorem headD_map_fst (l : List (Nat × ℚ)) :
    (l.map Prod.fst).headD 0 = (l.headD (0, 0)).1 := by
  cases l <;> rfl

theorem getLastD_map_fst (l : List (Nat × ℚ)) (d : Nat × ℚ) :
    (l.map Prod.fst).getLastD d.1 = (l.getLastD d).1 := by
  induction l generalizing d with
  | nil => rfl
  | cons a t ih =>
    rw [List.map_cons, List.getLastD_cons, List.getLastD_cons]
    exact ih a

theorem normalize_fixed (b : Nat → Nat) (M : List (Nat × ℚ))
    (hfix : ∀ p ∈ M, b p.1 = p.1)
    (hkeys : M.map Prod.fst
      = labelRange b ((M.headD (0, 0)).1) ((M.getLastD (0, 0)).1)) :
    normalize b M = M.map (fun p => (p.1, some p.2)) := by
  cases M with
  | nil => rfl
  | cons m ms =>
    have hnd : ((m :: ms).map Prod.fst).Nodup := by
      rw [hkeys]; exact labelRange_nodup _ _ _
    have h1 : resampleLast b (m :: ms)
        = ((m :: ms).map Prod.fst).map (fun ℓ => (ℓ, lastIn b (m :: ms) ℓ)) := by
      rw [resampleLast, hkeys]
      have e1 : b m.1 = m.1 := hfix m (List.mem_cons_self _ _)
      have e2 : b (((m :: ms).getLastD m).1) = ((m :: ms).getLastD m).1 :=
        hfix _ (getLastD_mem m ms m)
      have e3 : ((m :: ms).getLastD m) = ((m :: ms).getLastD (0, 0)) :=
        getLastD_cons_eq m ms m (0, 0)
      rw [e3] at e2
      rw [e1, e3, e2]
      rfl
    have h2 : resampleLast b (m :: ms) = (m :: ms).map (fun p => (p.1, some p.2)) := by
      rw [h1, List.map_map]
      apply List.map_congr_left
      intro p hp
      simp only [Function.comp_apply]
      have hlast : lastIn b (m :: ms) p.1 = some p.2 := by
        rw [lastIn]
        rw [List.filter_congr (fun q hq => by
          rw [hfix q hq] : ∀ q ∈ (m :: ms), (b q.1 == p.1) = (q.1 == p.1))]
        rw [filter_key_eq_singleton hnd hp]
        rfl
      rw [hlast]
    have h3 : hasNone ((m :: ms).map (fun p => (p.1, some p.2))) = false := by
      rw [hasNone, List.any_eq_false]
      intro p hp
      obtain ⟨q, hq, rfl⟩ := List.mem_map.mp hp
      simp
    rw [normalize, resample_whole, h2, fillIfNa, h3]
    simp only [Bool.false_eq_true, if_false]
    apply dedupKeepFirst_eq_self
    · simp
    · rw [List.map_map]
      exact hnd

/-- C9: the §4.2 normalize step (resample taking the last close per bucket,
forward- then back-fill, drop duplicate index entries keeping the first) is
idempotent: renormalizing its own (NaN-free) output at the same frequency
yields the same series, for every idempotent monotone bucket-label map and
every date-sorted input series. -/
theorem claim_c9_normalize_idempotent (b : Nat → Nat) (raw : List (Nat × ℚ))
    (hidem : ∀ d, b (b d) = b d)
    (hmono : ∀ x y : Nat, x ≤ y → b x ≤ b y)
    (hsorted : List.Chain' (fun p q : Nat × ℚ => p.1 ≤ q.1) raw) :
    normalize b (denan (normalize b raw)) = normalize b raw := by
  cases raw with
  | nil => rfl
  | cons r rs =>
    have hse : b r.1 ≤ b (((r :: rs).getLastD r).1) :=
      hmono _ _ (chain'_fst_le_getLastD r rs hsorted)
    have hsfix : b (b r.1) = b r.1 := hidem r.1
    have hfstR : (resampleLast b (r :: rs)).map Prod.fst
        = labelRange b (b r.1) (b (((r :: rs).getLastD r).1)) :=
      resampleLast_map_fst b r rs
    have hfstN : (fillIfNa (resampleLast b (r :: rs))).map Prod.fst
        = labelRange b (b r.1) (b (((r :: rs).getLastD r).1)) := by
      rw [fillIfNa_map_fst, hfstR]
    have hnodupL : (labelRange b (b r.1) (b (((r :: rs).getLastD r).1))).Nodup :=
      labelRange_nodup _ _ _
    have hnormraw : normalize b (r :: rs) = fillIfNa (resampleLast b (r :: rs)) := by
      rw [normalize, resample_whole]
      exact dedupKeepFirst_eq_self _ [] (by simp) (hfstN ▸ hnodupL)
    have hsome : ∀ p ∈ fillIfNa (resampleLast b (r :: rs)), p.2.isSome := by
      rw [fillIfNa]
      by_cases hna : hasNone (resampleLast b (r :: rs))
      · rw [if_pos hna]
        apply bfill_ffill_all_isSome
        refine ⟨(b r.1, lastIn b (r :: rs) (b r.1)), ?_, ?_⟩
        · rw [resampleLast]
          exact List.mem_map_of_mem _
            (mem_labelRange.mpr ⟨hsfix, le_refl _, hse⟩)
        · rw [lastIn]
          have hmem : r ∈ (r :: rs).filter (fun p => b p.1 == b r.1) :=
            List.mem_filter.mpr ⟨List.mem_cons_self _ _, by simp⟩
          have hne : ((r :: rs).filter (fun p => b p.1 == b r.1)).map (·.2) ≠ [] := by
            simp only [ne_eq, List.map_eq_nil_iff]
            exact List.ne_nil_of_mem hmem
          exact List.getLast?_isSome.mpr hne
      · rw [if_neg hna]
        exact hasNone_false_all_isSome (by simpa using hna)
    have hMwrap : (denan (fillIfNa (resampleLast b (r :: rs)))).map
        (fun p => (p.1, some p.2)) = fillIfNa (resampleLast b (r :: rs)) :=
      denan_wrap hsome
    have hfstM : (denan (fillIfNa (resampleLast b (r :: rs)))).map Prod.fst
        = labelRange b (b r.1) (b (((r :: rs).getLastD r).1)) := by
      have hcomp := congrArg (List.map Prod.fst) hMwrap
      rw [List.map_map] at hcomp
      rw [← hfstN, ← hcomp]
      rfl
    have hfixM : ∀ p ∈ denan (fillIfNa (resampleLast b (r :: rs))), b p.1 = p.1 := by
      intro p hp
      have hmem : p.1 ∈ labelRange b (b r.1) (b (((r :: rs).getLastD r).1)) :=
        hfstM ▸ List.mem_map_of_mem Prod.fst hp
      exact (mem_labelRange.mp hmem).1
    have hheadL : (labelRange b (b r.1) (b (((r :: rs).getLastD r).1))).headD 0
        = b r.1 := by
      rw [labelRange_cons b _ _ hsfix hse]
      rfl
    have hkeysM : (denan (fillIfNa (resampleLast b (r :: rs)))).map Prod.fst
        = labelRange b
            (((denan (fillIfNa (resampleLast b (r :: rs)))).headD (0, 0)).1)
            (((denan (fillIfNa (resampleLast b (r :: rs)))).getLastD (0, 0)).1) := by
      have hh : ((denan (fillIfNa (resampleLast b (r :: rs)))).headD (0, 0)).1
          = b r.1 := by
        rw [← headD_map_fst, hfstM, hheadL]
      have hl : ((denan (fillIfNa (resampleLast b (r :: rs)))).getLastD (0, 0)).1
          = (labelRange b (b r.1) (b (((r :: rs).getLastD r).1))).getLastD 0 := by
        rw [← getLastD_map_fst _ ((0 : Nat), (0 : ℚ)), hfstM]
      rw [hh, hl, hfstM, labelRange_shrink b _ _ hsfix hse]
    rw [hnormraw, normalize_fixed b _ hfixM hkeysM, hMwrap]

/-- Witness for `claim_c9_normalize_idempotent` with the identity label map
(the `Daily` rule on business-day data) at a concrete sorted series. -/
theorem claim_c9_normalize_idempotent_witness :
    List.Chain' (fun p q : Nat × ℚ => p.1 ≤ q.1) [(0, 2), (3, 5)]
    ∧ normalize (fun d => d) (denan (normalize (fun d => d) [(0, 2), (3, 5)]))
        = normalize (fun d => d) [(0, 2), (3, 5)] :=
  ⟨by simp,
   claim_c9_normalize_idempotent (fun d => d) [(0, 2), (3, 5)]
     (fun _ => rfl) (fun _ _ h => h) (by simp)⟩

/-- C1: for every valid input (every run that returns a payload), the
Lump-Sum invested-capital curve is constantly `amount * trading_periods`,
where `trading_periods` is the count of resolved calendar dates of the chosen
frequency over the input series' date span (`Annual` floored at one, as the
resolver guarantees), and this equals DCA's theoretical maximum invested
capital — for any frequency, calendar and price series. -/
theorem claim_c1_lump_invested (cal : Frequency → Nat → Nat → List Nat)
    (bl : Frequency → Nat → Nat) (monthsBack : Nat → Nat → Nat)
    (hist_data hist_data_full : List Row) (investment_amount : ℚ)
    (frequency : Frequency) (timeline_months : Nat) (trailing_percentage : ℚ)
    (p : Payload)
    (h : calculate_strategies cal bl monthsBack hist_data hist_data_full
      investment_amount frequency timeline_months trailing_percentage = .ok p) :
    p.performance.lumpInvested
      = List.replicate p.performance.dates.length
          (investment_amount * (resolvedDatesCount cal frequency hist_data : ℚ))
    ∧ investment_amount * (resolvedDatesCount cal frequency hist_data : ℚ)
        = dcaTheoreticalMax investment_amount (resolvedDatesCount cal frequency hist_data)
    ∧ (frequency ≠ Frequency.Annual →
        resolvedDatesCount cal frequency hist_data
          = (cal frequency (hist_data.headD dRow).date
              (hist_data.getLastD dRow).date).length) := by
  obtain ⟨d0, dd, drest, hR, hD, h7, h8, h6, hA, hp⟩ := calc_ok_inv h
  subst hp
  refine ⟨?_, rfl, ?_⟩
  · have h2 : (assemblePayload cal bl monthsBack hist_data hist_data_full
        investment_amount frequency timeline_months trailing_percentage
        dd drest).performance.dates.length = (dd :: drest).length := by
      show ((dd :: drest).map (·.1)).length = (dd :: drest).length
      exact List.length_map _ _
    rw [h2]
    rfl
  · intro hf
    cases frequency
    case Annual => exact absurd rfl hf
    all_goals rfl

/-- Witness for `claim_c1_lump_invested` at the concrete witness run. -/
theorem claim_c1_lump_invested_witness :
    (calculate_strategies wCal wBl wMB wRaw wRaw 1 .Daily 12 5 = .ok wPayload)
    ∧ wPayload.performance.lumpInvested
      = List.replicate wPayload.performance.dates.length
          ((1 : ℚ) * (resolvedDatesCount wCal .Daily wRaw : ℚ)) :=
  ⟨wRun_eq,
   (claim_c1_lump_invested wCal wBl wMB wRaw wRaw 1 .Daily 12 5 wPayload wRun_eq).1⟩

/-- Witness for `claim_c6_amended` at a concrete one-row series. -/
theorem claim_c6_amended_witness :
    ([((0 : Nat), (1 : ℚ))].length ≤ 1000) ∧
      resample_chunked dailyLabel [((0 : Nat), (1 : ℚ))]
        = resample_whole dailyLabel [((0 : Nat), (1 : ℚ))] :=
  ⟨by norm_num, claim_c6_amended dailyLabel _ (by norm_num)⟩

end Invest
